import Mathlib

/-!
Verification of the pattern-matching and template-rendering engine of the
obsidian-pattern-link-shortener plugin (src/utils.ts).  The engine is embedded
shallowly: JavaScript regexes built at runtime by the code are modelled by an
executable parser (`pRun`) from regex source text into an AST (`Regex`) and an
executable backtracking matcher (`mtch`) with numbered capture groups;
`String.prototype.replace` with a literal search pattern and a string
replacement is modelled by `jsReplaceLit` including the `$`-substitution rules;
`decodeURIComponent` is modelled by `decURIAux` (strict UTF-8 percent
decoding).  A regex construction that would throw a `SyntaxError` in JS is a
`none` from the parser, and `matchPattern` / `formatLink` return
`Except Unit (Option String)` where `.error ()` models an uncaught exception.
-/

namespace PLS

/-! ## Characters and JS whitespace -/

/-- The character set matched by the JS regex `\s` and trimmed by
`String.prototype.trim` (WhiteSpace plus LineTerminator). -/
def isJsWs (c : Char) : Bool :=
  let n := c.toNat
  (9 ≤ n && n ≤ 13) || n = 32 || n = 160 || n = 5760 ||
    (8192 ≤ n && n ≤ 8202) || n = 8232 || n = 8233 || n = 8239 ||
    n = 8287 || n = 12288 || n = 65279

/-- Model of `String.prototype.trim`. -/
def trimL (l : List Char) : List Char :=
  (((l.dropWhile isJsWs).reverse).dropWhile isJsWs).reverse

/-- Boolean prefix test on character lists. -/
def isPre : List Char → List Char → Bool
  | [], _ => true
  | _ :: _, [] => false
  | a :: as, b :: bs => a = b && isPre as bs

/-- Does `needle` occur as a contiguous substring of the list? -/
def containsSub (needle : List Char) : List Char → Bool
  | [] => isPre needle []
  | c :: cs => isPre needle (c :: cs) || containsSub needle cs

/-! ## String.prototype.replace with a literal search pattern

The code only ever calls `.replace` with regexes that match one fixed literal
token (`/\$\{url\}/g`, `/\$\{domain\}/g`, `/\$\{N\}/g`, `/\+/g`), so the
replace model scans for a literal needle, left to right, non-overlapping.
The replacement string undergoes the ECMAScript GetSubstitution expansion:
`$$`, `$&`, `` $` `` and `$'` are special (the search regexes have no capture
groups, so `$1`..`$9` stay literal). -/

/-- GetSubstitution for a zero-capture-group search pattern: `m` is the
matched text, `pre` the portion before the match, `post` the portion after. -/
def getSubst (m pre post : List Char) : List Char → List Char
  | [] => []
  | '$' :: c2 :: rest2 =>
    if c2 = '$' then '$' :: getSubst m pre post rest2
    else if c2 = '&' then m ++ getSubst m pre post rest2
    else if c2 = Char.ofNat 96 then pre ++ getSubst m pre post rest2
    else if c2 = Char.ofNat 39 then post ++ getSubst m pre post rest2
    else '$' :: c2 :: getSubst m pre post rest2
  | c :: rest => c :: getSubst m pre post rest

/-- Scanner for the global literal replace; `pre` is the text already
passed over (needed for `` $` ``).  Every step consumes at least one
character, so a fuel of one more than the input length is always enough. -/
def replAux (needle repl : List Char) : Nat → List Char → List Char → List Char
  | 0, _, _ => []
  | _ + 1, _, [] => []
  | f + 1, pre, c :: cs =>
    if needle ≠ [] ∧ isPre needle (c :: cs) = true then
      getSubst needle pre ((c :: cs).drop needle.length) repl ++
        replAux needle repl f (pre ++ needle) ((c :: cs).drop needle.length)
    else
      c :: replAux needle repl f (pre ++ [c]) cs

/-- Model of `str.replace(/literal/g, repl)` for a nonempty literal token. -/
def jsReplaceLit (hay needle repl : List Char) : List Char :=
  replAux needle repl (hay.length + 1) [] hay

/-! ## decodeURIComponent -/

def hexVal (c : Char) : Option Nat :=
  if '0' ≤ c ∧ c ≤ '9' then some (c.toNat - 48)
  else if 'A' ≤ c ∧ c ≤ 'F' then some (c.toNat - 55)
  else if 'a' ≤ c ∧ c ≤ 'f' then some (c.toNat - 87)
  else none

/-- Read one `%XX` escape that must be a UTF-8 continuation byte. -/
def contByte : List Char → Option (Nat × List Char)
  | '%' :: h1 :: h2 :: rest =>
    match hexVal h1, hexVal h2 with
    | some a, some b =>
      let v := 16 * a + b
      if 128 ≤ v ∧ v ≤ 191 then some (v, rest) else none
    | _, _ => none
  | _ => none

/-- Model of `decodeURIComponent`: percent-decodes `%XX` escapes, assembling
multi-byte UTF-8 sequences, returning `none` where JS throws `URIError`
(missing or non-hex digits, stray continuation bytes, overlong encodings,
surrogates, out-of-range code points, truncated sequences). -/
def decURIAux : Nat → List Char → Option (List Char)
  | 0, _ => none
  | _ + 1, [] => some []
  | f + 1, c :: rest =>
    if c = '%' then
      match rest with
      | h1 :: h2 :: rest2 =>
        match hexVal h1, hexVal h2 with
        | some a, some b0 =>
          let b := 16 * a + b0
          if b < 128 then (decURIAux f rest2).map (Char.ofNat b :: ·)
          else if b < 194 then none
          else if b < 224 then
            match contByte rest2 with
            | some (b2, rest3) =>
              (decURIAux f rest3).map (Char.ofNat ((b - 192) * 64 + (b2 - 128)) :: ·)
            | none => none
          else if b < 240 then
            match contByte rest2 with
            | some (b2, rest3) =>
              match contByte rest3 with
              | some (b3, rest4) =>
                let v := (b - 224) * 4096 + (b2 - 128) * 64 + (b3 - 128)
                if 2048 ≤ v ∧ ¬ (55296 ≤ v ∧ v ≤ 57343) then
                  (decURIAux f rest4).map (Char.ofNat v :: ·)
                else none
              | none => none
            | none => none
          else if b < 245 then
            match contByte rest2 with
            | some (b2, rest3) =>
              match contByte rest3 with
              | some (b3, rest4) =>
                match contByte rest4 with
                | some (b4, rest5) =>
                  let v := (b - 240) * 262144 + (b2 - 128) * 4096 +
                    (b3 - 128) * 64 + (b4 - 128)
                  if 65536 ≤ v ∧ v ≤ 1114111 then
                    (decURIAux f rest5).map (Char.ofNat v :: ·)
                  else none
                | none => none
              | none => none
            | none => none
          else none
        | _, _ => none
      | _ => none
    else (decURIAux f rest).map (c :: ·)

/-- Model of `decodeURIComponent` (fuel instantiated sufficiently). -/
def decodeURIComponentE (l : List Char) : Option (List Char) :=
  decURIAux (l.length + 1) l

/-- Core of `decodeUrlString` on character lists: replace every `+` by a
space (via the JS replace model), then percent-decode; on a decoding error
fall back to the `+`-replaced text, mirroring the `try`/`catch`. -/
def decodeUrlStringL (l : List Char) : List Char :=
  let withSpaces := jsReplaceLit l ['+'] [' ']
  match decodeURIComponentE withSpaces with
  | some t => t
  | none => withSpaces

/-- Model of `decodeUrlString` from src/utils.ts. -/
def decodeUrlString (s : String) : String :=
  ⟨decodeUrlStringL s.data⟩

/-! ## escapeDomainPattern

The source applies two global replaces: first every regex metacharacter
`[.+?^${}()|[\]\\]` is prefixed with a backslash (replacement `'\\$&'`),
then every `*` (never touched or produced by the first pass) becomes `.*`.
The composition acts independently on each character, which is how it is
written here. -/

def specials : List Char :=
  ['.', '+', '?', '^', '$', Char.ofNat 123, Char.ofNat 125,
   '(', ')', '|', '[', ']', '\\']

def escOne (c : Char) : List Char :=
  if c ∈ specials then ['\\', c]
  else if c = '*' then ['.', '*']
  else [c]

def escAllL : List Char → List Char
  | [] => []
  | c :: cs => escOne c ++ escAllL cs

/-- Model of `escapeDomainPattern` from src/utils.ts. -/
def escapeDomainPattern (domain : String) : String :=
  ⟨escAllL domain.data⟩

/-! ## Regex AST -/

inductive CItem where
  | ch (c : Char)
  | rng (lo hi : Char)
  | digit
  | word
  | space
deriving Repr, DecidableEq

inductive Regex where
  | eps
  | lit (c : Char)
  | dot
  | cls (neg : Bool) (items : List CItem)
  | caret
  | dollar
  | seq (a b : Regex)
  | alt (a b : Regex)
  | star (a : Regex)
  | group (n : Nat) (a : Regex)
deriving Repr, DecidableEq

def seqOfList : List Regex → Regex
  | [] => .eps
  | [a] => a
  | a :: as => .seq a (seqOfList as)

def altOfList : List Regex → Regex
  | [] => .eps
  | [a] => a
  | a :: as => .alt a (altOfList as)

/-! ## Regex parser (model of `new RegExp`)

A single-pass stack machine over the pattern source.  It covers the regex
dialect the plugin's rules use — literals, identity escapes, `\d \D \w \W \s
\S`, `.`, `^`, `$`, character classes with plain ranges, capturing and `(?:`
groups, `|`, and the greedy quantifiers `* + ?` — and returns `none` both for
text that is a JS `SyntaxError` (unbalanced parens or classes, nothing to
repeat, double quantifiers) and for constructs outside the modelled dialect
(lazy quantifiers, `{n,m}`, lookarounds, backreferences, `\u`-style escapes).
The counter numbers capture groups by order of `(`, as JS does. -/

structure PSt where
  seqAcc : List Regex := []
  alts : List Regex := []
  frames : List (Option Nat × List Regex × List Regex) := []
  ctr : Nat := 1
  lastQ : Bool := false
  inCls : Option (Bool × List CItem) := none
deriving Repr

def escAtom (c : Char) : Option Regex :=
  if c = 'd' then some (.cls false [.digit])
  else if c = 'D' then some (.cls true [.digit])
  else if c = 'w' then some (.cls false [.word])
  else if c = 'W' then some (.cls true [.word])
  else if c = 's' then some (.cls false [.space])
  else if c = 'S' then some (.cls true [.space])
  else if c = 'n' then some (.lit (Char.ofNat 10))
  else if c = 't' then some (.lit (Char.ofNat 9))
  else if c = 'r' then some (.lit (Char.ofNat 13))
  else if c.isAlphanum then none
  else some (.lit c)

def escCItem (c : Char) : Option CItem :=
  if c = 'd' then some .digit
  else if c = 'w' then some .word
  else if c = 's' then some .space
  else if c = 'n' then some (.ch (Char.ofNat 10))
  else if c = 't' then some (.ch (Char.ofNat 9))
  else if c = 'r' then some (.ch (Char.ofNat 13))
  else if c.isAlphanum then none
  else some (.ch c)

def pushAtom (st : PSt) (r : Regex) : PSt :=
  { st with seqAcc := r :: st.seqAcc, lastQ := false }

def levelRegex (st : PSt) : Regex :=
  altOfList ((seqOfList st.seqAcc.reverse :: st.alts).reverse)

def pRun : Nat → PSt → List Char → Option (Regex × Nat)
  | 0, _, _ => none
  | _ + 1, st, [] =>
    match st.inCls with
    | some _ => none
    | none =>
      match st.frames with
      | [] => some (levelRegex st, st.ctr)
      | _ :: _ => none
  | f + 1, st, c :: rest =>
    match st.inCls with
    | some (neg, items) =>
      if c = ']' then
        pRun f { st with inCls := none,
                         seqAcc := Regex.cls neg items.reverse :: st.seqAcc,
                         lastQ := false } rest
      else if c = '\\' then
        match rest with
        | c2 :: rest2 =>
          match escCItem c2 with
          | some it => pRun f { st with inCls := some (neg, it :: items) } rest2
          | none => none
        | [] => none
      else
        match rest with
        | d :: c2 :: rest2 =>
          if d = '-' then
            if c2 = ']' then
              pRun f { st with inCls := some (neg, CItem.ch c :: items) } rest
            else if c2 = '\\' then none
            else if c ≤ c2 then
              pRun f { st with inCls := some (neg, CItem.rng c c2 :: items) } rest2
            else none
          else pRun f { st with inCls := some (neg, CItem.ch c :: items) } rest
        | _ => pRun f { st with inCls := some (neg, CItem.ch c :: items) } rest
    | none =>
      if c = '\\' then
        match rest with
        | c2 :: rest2 =>
          match escAtom c2 with
          | some a => pRun f (pushAtom st a) rest2
          | none => none
        | [] => none
      else if c = '(' then
        match rest with
        | d :: rest1 =>
          if d = '?' then
            match rest1 with
            | e :: rest2 =>
              if e = ':' then
                pRun f { st with frames := (none, st.seqAcc, st.alts) :: st.frames,
                                 seqAcc := [], alts := [], lastQ := false } rest2
              else none
            | [] => none
          else
            pRun f { st with frames := (some st.ctr, st.seqAcc, st.alts) :: st.frames,
                             seqAcc := [], alts := [], ctr := st.ctr + 1,
                             lastQ := false } rest
        | [] =>
          pRun f { st with frames := (some st.ctr, st.seqAcc, st.alts) :: st.frames,
                           seqAcc := [], alts := [], ctr := st.ctr + 1,
                           lastQ := false } rest
      else if c = ')' then
        match st.frames with
        | [] => none
        | (gi, sv, av) :: fr =>
          let inner := levelRegex st
          let atom := match gi with
            | some n => Regex.group n inner
            | none => inner
          pRun f { st with frames := fr, seqAcc := atom :: sv, alts := av,
                           lastQ := false } rest
      else if c = '|' then
        pRun f { st with alts := seqOfList st.seqAcc.reverse :: st.alts,
                         seqAcc := [], lastQ := false } rest
      else if c = '*' || c = '+' || c = '?' then
        if st.lastQ then none
        else
          match st.seqAcc with
          | [] => none
          | a :: as =>
            let a' := if c = '*' then Regex.star a
              else if c = '+' then Regex.seq a (Regex.star a)
              else Regex.alt a Regex.eps
            pRun f { st with seqAcc := a' :: as, lastQ := true } rest
      else if c = '[' then
        match rest with
        | d :: rest2 =>
          if d = '^' then pRun f { st with inCls := some (true, []) } rest2
          else pRun f { st with inCls := some (false, []) } rest
        | [] => pRun f { st with inCls := some (false, []) } rest
      else if c = '.' then pRun f (pushAtom st .dot) rest
      else if c = '^' then pRun f (pushAtom st .caret) rest
      else if c = '$' then pRun f (pushAtom st .dollar) rest
      else if c = Char.ofNat 123 || c = Char.ofNat 125 || c = ']' then none
      else pRun f (pushAtom st (.lit c)) rest

/-- Compile a regex source string; `none` models `new RegExp` throwing.
Also returns the final group counter (1 + number of capture groups). -/
def compileRegexCnt (src : List Char) : Option (Regex × Nat) :=
  pRun (src.length + 1) {} src

def compileRegex (src : List Char) : Option Regex :=
  (compileRegexCnt src).map (·.1)

/-! ## Regex matcher

Backtracking matcher with ECMAScript semantics for the modelled dialect:
alternation prefers the left branch, `*` is greedy and an iteration must
consume at least one character, captures record the last text matched by
their group.  `mtch inp f re pos caps` returns every way the regex can match
starting at `pos`, in backtracking priority order, as (end position, capture
list) pairs; the fuel `f` bounds recursion depth and is chosen large enough
for every concrete run. -/

abbrev Caps := List (Nat × List Char)

def capLookup : Caps → Nat → Option (List Char)
  | [], _ => none
  | (k, v) :: rest, n => if k = n then some v else capLookup rest n

/-- `match[i] !== undefined ? match[i] : ''` from the source. -/
def capRaw (caps : Caps) (n : Nat) : List Char :=
  (capLookup caps n).getD []

def seg (inp : List Char) (a b : Nat) : List Char :=
  (inp.drop a).take (b - a)

def cItemMatch (c : Char) : CItem → Bool
  | .ch c' => c = c'
  | .rng lo hi => lo ≤ c ∧ c ≤ hi
  | .digit => '0' ≤ c ∧ c ≤ '9'
  | .word => ('0' ≤ c ∧ c ≤ '9') || ('a' ≤ c ∧ c ≤ 'z') ||
      ('A' ≤ c ∧ c ≤ 'Z') || c = '_'
  | .space => isJsWs c

def isLineTerm (c : Char) : Bool :=
  c.toNat = 10 || c.toNat = 13 || c.toNat = 8232 || c.toNat = 8233

def mtch (inp : List Char) : Nat → Regex → Nat → Caps → List (Nat × Caps)
  | 0, _, _, _ => []
  | f + 1, re, pos, caps =>
    match re with
    | .eps => [(pos, caps)]
    | .lit c =>
      match inp.drop pos with
      | x :: _ => if x = c then [(pos + 1, caps)] else []
      | [] => []
    | .dot =>
      match inp.drop pos with
      | x :: _ => if isLineTerm x then [] else [(pos + 1, caps)]
      | [] => []
    | .cls neg items =>
      match inp.drop pos with
      | x :: _ =>
        if (items.any (cItemMatch x)) ≠ neg then [(pos + 1, caps)] else []
      | [] => []
    | .caret => if pos = 0 then [(pos, caps)] else []
    | .dollar => if pos = inp.length then [(pos, caps)] else []
    | .seq a b =>
      (mtch inp f a pos caps).flatMap fun pc => mtch inp f b pc.1 pc.2
    | .alt a b => mtch inp f a pos caps ++ mtch inp f b pos caps
    | .group n a =>
      (mtch inp f a pos caps).map fun pc => (pc.1, (n, seg inp pos pc.1) :: pc.2)
    | .star a =>
      ((mtch inp f a pos caps).filter fun pc => pc.1 ≠ pos).flatMap
        (fun pc => mtch inp f (.star a) pc.1 pc.2) ++ [(pos, caps)]

def rxSize : Regex → Nat
  | .eps | .lit _ | .dot | .cls _ _ | .caret | .dollar => 1
  | .seq a b | .alt a b => rxSize a + rxSize b + 1
  | .star a => rxSize a + 1
  | .group _ a => rxSize a + 1

def matchFuel (re : Regex) (inp : List Char) : Nat :=
  (rxSize re + 1) * (inp.length + 2)

/-- Model of running a compiled regex against a string the way
`RegExp.prototype.exec` / `String.prototype.match` does: try every start
index left to right and return the first success (start, end, captures). -/
def jsMatchFirst (re : Regex) (inp : List Char) : Option (Nat × Nat × Caps) :=
  (List.range (inp.length + 1)).findSome? fun st =>
    match mtch inp (matchFuel re inp) re st [] with
    | [] => none
    | pc :: _ => some (st, pc.1, pc.2)

/-- Model of `RegExp.prototype.test`. -/
def regexTest (re : Regex) (inp : List Char) : Bool :=
  (jsMatchFirst re inp).isSome

/-! ## The rule record and the engine -/

structure LinkPattern where
  id : String
  name : String
  enabled : Bool
  domainPattern : String
  pathPattern : String
  outputTemplate : String
deriving Repr, DecidableEq

/-- Source text of the domain fast-path regex
`` `^https?:\/\/${escapedDomain}` ``. -/
def domainRegexSrc (escapedDomain : String) : List Char :=
  "^https?:\\/\\/".data ++ escapedDomain.data

/-- Source text of the full regex
`` `^(https?:\/\/${escapedDomain})${pattern.pathPattern}(\?.*)?$` ``. -/
def fullRegexSrc (escapedDomain pathPat : String) : List Char :=
  "^(https?:\\/\\/".data ++ escapedDomain.data ++ ")".data ++
    pathPat.data ++ "(\\?.*)?$".data

/-- `match[1].replace(/^https?:\/\//, '')` — strip the scheme prefix (the
regex is anchored and not global, and `https?` is greedy). -/
def stripScheme (l : List Char) : List Char :=
  if isPre "https://".data l then l.drop 8
  else if isPre "http://".data l then l.drop 7
  else l

/-- The literal token matched by `/\$\{N\}/g` for a digit `N`. -/
def phSrc (i : Nat) : List Char :=
  ['$', Char.ofNat 123, Char.ofNat (48 + i), Char.ofNat 125]

/-- The capture-group substitution loop (`for i = 1..9`), acting on the
output text after the `${url}` and `${domain}` passes.  `match[i+1]` is read
(offset by the wrapper domain group), URL-decoded, and substituted. -/
def renderLoop (caps : Caps) (out : List Char) : List Char :=
  (List.range 9).foldl
    (fun acc j =>
      jsReplaceLit acc (phSrc (j + 1)) (decodeUrlStringL (capRaw caps (j + 2))))
    out

/-- Model of `matchPattern` from src/utils.ts.  `.error ()` models an
uncaught exception escaping the function (there is no try/catch in the
source); `.ok none` is a `null` return. -/
def matchPattern (url : String) (pat : LinkPattern) : Except Unit (Option String) :=
  if pat.enabled = false then .ok none
  else if pat.domainPattern = "" then .ok none
  else if pat.pathPattern = "" then .ok none
  else
    let escapedDomain := escapeDomainPattern pat.domainPattern
    match compileRegex (domainRegexSrc escapedDomain) with
    | none => .error ()
    | some domRe =>
      if regexTest domRe url.data = false then .ok none
      else
        match compileRegex (fullRegexSrc escapedDomain pat.pathPattern) with
        | none => .error ()
        | some fullRe =>
          match jsMatchFirst fullRe url.data with
          | none => .ok none
          | some (_, _, caps) =>
            let out1 := jsReplaceLit pat.outputTemplate.data "${url}".data url.data
            let domainMatch := stripScheme (capRaw caps 1)
            let out2 := jsReplaceLit out1 "${domain}".data domainMatch
            .ok (some ⟨renderLoop caps out2⟩)

def tryPatterns (url : String) : List LinkPattern → Except Unit (Option String)
  | [] => .ok none
  | p :: ps =>
    match matchPattern url p with
    | .error e => .error e
    | .ok (some r) => .ok (some r)
    | .ok none => tryPatterns url ps

/-- Model of `formatLink` from src/utils.ts (the `typeof` guard is outside
the reach of a typed embedding; the argument is always a string here). -/
def formatLink (pastedText : String) (patterns : List LinkPattern) :
    Except Unit (Option String) :=
  if trimL pastedText.data = [] then .ok none
  else if pastedText.data.any isJsWs then .ok none
  else tryPatterns pastedText patterns

/-! ## validateOutputTemplate (author-time validator, used by C10) -/

/-- Scanner equivalent of the test `/\$\{\d+\}/.test(template)`. -/
def digitsThenClose : List Char → Bool
  | [] => false
  | c :: rest =>
    if c = Char.ofNat 125 then true
    else if '0' ≤ c ∧ c ≤ '9' then digitsThenClose rest
    else false

def phAt : List Char → Bool
  | a :: b :: c :: rest =>
    a = '$' && b = Char.ofNat 123 && ('0' ≤ c ∧ c ≤ '9') && digitsThenClose rest
  | _ => false

def hasDigitPh : List Char → Bool
  | [] => false
  | c :: rest => phAt (c :: rest) || hasDigitPh rest

/-- Model of `validateOutputTemplate` from src/utils.ts. -/
def validateOutputTemplate (template : String) : Option String :=
  if template = "" ∨ trimL template.data = [] then some "Template cannot be empty"
  else if containsSub "${url}".data template.data = false ∧
      hasDigitPh template.data = false then
    some "Template must include a url or capture group placeholder"
  else none

/-! ## Auxiliary definitions for the statements and proofs -/

instance instDecEqExcept {ε α : Type} [DecidableEq ε] [DecidableEq α] :
    DecidableEq (Except ε α)
  | .ok x, .ok y =>
    if h : x = y then .isTrue (congrArg Except.ok h)
    else .isFalse (fun hh => h (Except.ok.inj hh))
  | .error x, .error y =>
    if h : x = y then .isTrue (congrArg Except.error h)
    else .isFalse (fun hh => h (Except.error.inj hh))
  | .ok _, .error _ => .isFalse Except.noConfusion
  | .error _, .ok _ => .isFalse Except.noConfusion

/-- Indices of the capture groups occurring in a regex. -/
def groupIdxs : Regex → List Nat
  | .eps | .lit _ | .dot | .cls _ _ | .caret | .dollar => []
  | .seq a b | .alt a b => groupIdxs a ++ groupIdxs b
  | .star a => groupIdxs a
  | .group n a => n :: groupIdxs a

/-- Spec-side description of the `+`-to-space step of the Value Decoder
("converting every literal `+` character to a space"). -/
def plusToSpace (c : Char) : Char := if c = '+' then ' ' else c

/-- Spec-side wildcard semantics of a domain pattern (from the spec's words:
"`*` in the pattern matches any sequence of characters (including empty) and
every other pattern character is matched literally"). -/
def wildExactL : List Char → List Char → Prop
  | [], s => s = []
  | c :: p, s =>
    if c = '*' then ∃ a b, s = a ++ b ∧ wildExactL p b
    else ∃ b, s = c :: b ∧ wildExactL p b

/-- Bound on the capture-group indices of a regex. -/
def gBound (re : Regex) (n : Nat) : Prop := ∀ i ∈ groupIdxs re, i < n

/-- Invariant of a saved parser frame: its group index and stored regexes
are below the counter. -/
def frInv (ctr : Nat) (fr : Option Nat × List Regex × List Regex) : Prop :=
  (∀ k, fr.1 = some k → k < ctr) ∧
  (∀ r ∈ fr.2.1, gBound r ctr) ∧ (∀ r ∈ fr.2.2, gBound r ctr)

/-- Invariant of the parser state: everything stored is below the counter. -/
def stInv (st : PSt) : Prop :=
  (∀ r ∈ st.seqAcc, gBound r st.ctr) ∧ (∀ r ∈ st.alts, gBound r st.ctr) ∧
  (∀ fr ∈ st.frames, frInv st.ctr fr)

/-- The atom the parser produces for one character of an escaped domain
pattern (`*` became `.*`, everything else is literal). -/
def atomOf (c : Char) : Regex := if c = '*' then .star .dot else .lit c

def domAtoms : List Char → List Regex
  | [] => []
  | c :: cs => atomOf c :: domAtoms cs

/-- The nine atoms the parser produces for the `^https?:\/\/` prefix of the
domain regex source. -/
def schemeAtoms : List Regex :=
  [.caret, .lit 'h', .lit 't', .lit 't', .lit 'p', .alt (.lit 's') .eps,
   .lit ':', .lit '/', .lit '/']

/-- Number of parser steps consumed by an escaped domain pattern. -/
def stepsOf : List Char → Nat
  | [] => 0
  | c :: cs => (if c = '*' then 2 else 1) + stepsOf cs

/-- The parser's `lastQ` flag after consuming an escaped domain pattern. -/
def lastQOf : List Char → Bool → Bool
  | [], b => b
  | c :: cs, _ => lastQOf cs (decide (c = '*'))

/-- Concrete compiled regex for the C2 witness rule. -/
def c2WitSrc : List Char := fullRegexSrc (escapeDomainPattern "a.b") "\\/p\\/(\\d+)"

def c2WitRegex : Regex := ((compileRegexCnt c2WitSrc).getD (.eps, 0)).1

def c2WitCaps : Caps :=
  ((jsMatchFirst c2WitRegex "https://a.b/p/7".data).getD (0, 0, [])).2.2

/-! ## Concrete rule records used in closed theorems and witnesses -/

/-- The built-in JIRA preset from src/presets.ts. -/
def jiraPreset : LinkPattern :=
  { id := "jira", name := "JIRA Issues", enabled := true,
    domainPattern := "*.atlassian.net",
    pathPattern := "\\/.*\\/([A-Z][A-Z0-9]*-\\d+)",
    outputTemplate := "[${1}](${url})" }

/-- An enabled rule whose `pathPattern` is not valid regex syntax but whose
`domainPattern` matches, so evaluation reaches the full-regex construction. -/
def ruleBadPath : LinkPattern :=
  { id := "bad", name := "Bad", enabled := true,
    domainPattern := "a.b", pathPattern := "(",
    outputTemplate := "${url}" }

/-- A well-formed rule that matches `https://a.b/x`. -/
def ruleGoodPath : LinkPattern :=
  { id := "good", name := "Good", enabled := true,
    domainPattern := "a.b", pathPattern := "\\/x",
    outputTemplate := "${url}" }

/-- A disabled copy of `ruleGoodPath`. -/
def ruleOff : LinkPattern :=
  { id := "off", name := "Off", enabled := false,
    domainPattern := "a.b", pathPattern := "\\/x",
    outputTemplate := "${url}" }

/-- One capture group in the path, template referencing `${2}`. -/
def ruleOneGroup : LinkPattern :=
  { id := "c2", name := "C2", enabled := true,
    domainPattern := "a.b", pathPattern := "\\/p\\/(\\d+)",
    outputTemplate := "[${1} ${2}](${url})" }

/-- Template that is exactly the `${url}` placeholder. -/
def ruleUrlOnly : LinkPattern :=
  { id := "c5", name := "C5", enabled := true,
    domainPattern := "a.b", pathPattern := "\\/.*",
    outputTemplate := "${url}" }

/-- Template `${0}`, accepted by the validator but never substituted. -/
def ruleZeroPh : LinkPattern :=
  { id := "c10", name := "C10", enabled := true,
    domainPattern := "a.b", pathPattern := "\\/x",
    outputTemplate := "${0}" }

/-- Parser state after consuming the `^https?:\/\/` prefix of the domain
regex source. -/
def schemeSt : PSt :=
  { seqAcc := [.lit '/', .lit '/', .lit ':', .alt (.lit 's') .eps,
               .lit 'p', .lit 't', .lit 't', .lit 'h', .caret],
    alts := [], frames := [], ctr := 1, lastQ := false, inCls := none }

end PLS

namespace PLS

set_option maxRecDepth 10000

/-! ## Lemmas about the literal replace -/

theorem replAux_nil (needle repl : List Char) (f : Nat) (pre : List Char) :
    replAux needle repl f pre [] = [] := by
  cases f <;> rfl

theorem isPre_refl (l : List Char) : isPre l l = true := by
  induction l with
  | nil => rfl
  | cons c cs ih => simp [isPre, ih]

theorem containsSub_cons (needle c cs) :
    containsSub needle (c :: cs) = (isPre needle (c :: cs) || containsSub needle cs) :=
  rfl

/-- A replace whose needle does not occur leaves the string unchanged. -/
theorem replAux_no_occ (needle repl : List Char) :
    ∀ (f : Nat) (l pre : List Char), l.length < f →
      containsSub needle l = false → replAux needle repl f pre l = l := by
  intro f
  induction f with
  | zero => intro l pre h; omega
  | succ f ih =>
    intro l pre hlen hocc
    cases l with
    | nil => rfl
    | cons c cs =>
      rw [containsSub_cons, Bool.or_eq_false_iff] at hocc
      have hcond : ¬ (needle ≠ [] ∧ isPre needle (c :: cs) = true) := by
        intro hc
        rw [hc.2] at hocc
        exact absurd hocc.1 (by simp)
      rw [replAux, if_neg hcond]
      have : cs.length < f := by
        have := hlen
        simp only [List.length_cons] at this
        omega
      rw [ih cs (pre ++ [c]) this hocc.2]

theorem jsReplaceLit_no_occ (l needle repl : List Char)
    (h : containsSub needle l = false) : jsReplaceLit l needle repl = l :=
  replAux_no_occ needle repl (l.length + 1) l [] (Nat.lt_succ_self _) h

/-- Replacing a nonempty haystack that is exactly the needle yields one
GetSubstitution expansion of the replacement. -/
theorem jsReplaceLit_self (needle repl : List Char) (h : needle ≠ []) :
    jsReplaceLit needle needle repl = getSubst needle [] [] repl := by
  cases needle with
  | nil => exact absurd rfl h
  | cons c cs =>
    show replAux (c :: cs) repl (cs.length + 1 + 1) [] (c :: cs) = _
    rw [replAux, if_pos ⟨h, isPre_refl _⟩]
    rw [List.drop_length]
    rw [replAux_nil, List.append_nil]

theorem containsSub_tail {needle c cs}
    (h : containsSub needle (c :: cs) = false) : containsSub needle cs = false := by
  rw [containsSub_cons, Bool.or_eq_false_iff] at h
  exact h.2

/-- A GetSubstitution expansion with none of the special `$` sequences is
the identity. -/
theorem getSubst_id (m pre post : List Char) :
    ∀ (n : Nat) (r : List Char), r.length ≤ n →
      containsSub ['$', '$'] r = false →
      containsSub ['$', '&'] r = false →
      containsSub ['$', Char.ofNat 96] r = false →
      containsSub ['$', Char.ofNat 39] r = false →
      getSubst m pre post r = r := by
  intro n
  induction n with
  | zero =>
    intro r hr _ _ _ _
    cases r with
    | nil => rfl
    | cons c cs => simp at hr
  | succ n ih =>
    intro r hr h1 h2 h3 h4
    cases r with
    | nil => rfl
    | cons c rest =>
      cases rest with
      | nil =>
        rw [getSubst.eq_3 _ _ _ _ _ (by intro c2 r2 _ h; cases h), getSubst.eq_1]
      | cons c2 rest2 =>
        have hlen : (c2 :: rest2).length ≤ n := by
          simp only [List.length_cons] at hr ⊢
          omega
        by_cases hc : c = '$'
        · subst hc
          have hpre : ∀ x : Char, containsSub ['$', x] ('$' :: c2 :: rest2) = false →
              c2 ≠ x := by
            intro x hx hcx
            subst hcx
            rw [containsSub_cons, Bool.or_eq_false_iff] at hx
            have := hx.1
            simp [isPre] at this
          have hlen2 : rest2.length ≤ n := by
            simp only [List.length_cons] at hr
            omega
          have hrec := ih rest2 hlen2
            (containsSub_tail (containsSub_tail h1))
            (containsSub_tail (containsSub_tail h2))
            (containsSub_tail (containsSub_tail h3))
            (containsSub_tail (containsSub_tail h4))
          rw [getSubst.eq_2, if_neg (hpre '$' h1), if_neg (hpre '&' h2),
            if_neg (hpre (Char.ofNat 96) h3), if_neg (hpre (Char.ofNat 39) h4), hrec]
        · rw [getSubst.eq_3 _ _ _ _ _ (fun _ _ hcc _ => hc hcc),
            ih (c2 :: rest2) hlen (containsSub_tail h1) (containsSub_tail h2)
              (containsSub_tail h3) (containsSub_tail h4)]


/-- The `str.replace(/\+/g, ' ')` pass is exactly the characterwise
`+`-to-space map. -/
theorem replAux_plus :
    ∀ (f : Nat) (l pre : List Char), l.length < f →
      replAux ['+'] [' '] f pre l = l.map plusToSpace := by
  intro f
  induction f with
  | zero => intro l pre h; omega
  | succ f ih =>
    intro l pre hlen
    cases l with
    | nil => rfl
    | cons c cs =>
      have hlen2 : cs.length < f := by
        simp only [List.length_cons] at hlen
        omega
      rw [replAux]
      by_cases hc : c = '+'
      · subst hc
        rw [if_pos ⟨by simp, by simp [isPre]⟩]
        show getSubst ['+'] pre cs [' '] ++ replAux ['+'] [' '] f (pre ++ ['+']) cs
            = List.map plusToSpace ('+' :: cs)
        rw [ih cs _ hlen2]
        rfl
      · have hb : isPre ['+'] (c :: cs) = false := by
          simp [isPre]
          exact fun h => hc h.symm
        rw [if_neg (by rw [hb]; simp), ih cs _ hlen2]
        simp [plusToSpace, hc]

theorem jsReplaceLit_plus (l : List Char) :
    jsReplaceLit l ['+'] [' '] = l.map plusToSpace :=
  replAux_plus (l.length + 1) l [] (Nat.lt_succ_self _)

/-- C8: `decodeUrlString` first converts every literal `+` to a space
(characterwise map), then percent-decodes the result; if percent-decoding
fails it returns the input with only the `+`-to-space step applied.  The
model is a total function, so no exception can reach the caller. -/
theorem c8_decode_two_step (s : String) :
    jsReplaceLit s.data ['+'] [' '] = s.data.map plusToSpace ∧
    decodeUrlString s =
      ⟨(decodeURIComponentE (s.data.map plusToSpace)).getD
        (s.data.map plusToSpace)⟩ := by
  refine ⟨jsReplaceLit_plus s.data, ?_⟩
  unfold decodeUrlString decodeUrlStringL
  rw [jsReplaceLit_plus]
  cases h : decodeURIComponentE (s.data.map plusToSpace) <;> simp [h]

/-! ## Helper lemmas about the evaluator loop -/

theorem tryPatterns_all_none (u : String) :
    ∀ ps : List LinkPattern, (∀ p ∈ ps, matchPattern u p = .ok none) →
      tryPatterns u ps = .ok none := by
  intro ps
  induction ps with
  | nil => intro _; rfl
  | cons p ps ih =>
    intro h
    rw [tryPatterns, h p (by simp)]
    exact ih fun q hq => h q (by simp [hq])

theorem tryPatterns_first_some (u : String) (out : String) :
    ∀ (pre : List LinkPattern) (r : LinkPattern) (post : List LinkPattern),
      (∀ q ∈ pre, matchPattern u q = .ok none) →
      matchPattern u r = .ok (some out) →
      tryPatterns u (pre ++ r :: post) = .ok (some out) := by
  intro pre
  induction pre with
  | nil =>
    intro r post _ hr
    rw [List.nil_append, tryPatterns, hr]
  | cons q qs ih =>
    intro r post hpre hr
    rw [List.cons_append, tryPatterns, hpre q (by simp)]
    exact ih r post (fun q' hq' => hpre q' (by simp [hq'])) hr

/-! ## Claim theorems: concrete evaluations -/

/-- C1: the claim says a regex-construction failure for one rule is caught
and treated as that rule's non-match.  The code has no try/catch: with an
enabled rule whose `domainPattern` matches the pasted text but whose
`pathPattern` `(` is invalid regex syntax, the `new RegExp` call for the
full pattern throws and the exception escapes `formatLink` (modelled as
`.error ()`), instead of the rule being skipped. -/
theorem c1_construction_error_escapes :
    formatLink "https://a.b/x" [ruleBadPath] = .error () := by decide

/-- C3 counterexample: `ruleGoodPath` matches the candidate, yet with the
earlier (non-matching, invalid) rule present, `formatLink` does not return
the earliest matching rule's result — it throws. -/
theorem c3_counterexample :
    matchPattern "https://a.b/x" ruleGoodPath = .ok (some "https://a.b/x") ∧
    formatLink "https://a.b/x" [ruleBadPath, ruleGoodPath] = .error () ∧
    (Except.error () : Except Unit (Option String)) ≠
      .ok (some "https://a.b/x") := by
  refine ⟨by decide, by decide, by decide⟩

/-- C3 amended: if every rule before `r` evaluates to a non-match without
error and `r` matches, then `formatLink` returns `r`'s result (the
whitespace gate must also pass).  First-match-wins holds provided no
earlier rule's regex construction throws. -/
theorem c3_first_match_wins (u : String) (pre post : List LinkPattern)
    (r : LinkPattern) (out : String)
    (hTrim : trimL u.data ≠ [])
    (hWs : u.data.any isJsWs = false)
    (hpre : ∀ q ∈ pre, matchPattern u q = .ok none)
    (hr : matchPattern u r = .ok (some out)) :
    formatLink u (pre ++ r :: post) = .ok (some out) := by
  unfold formatLink
  rw [if_neg hTrim, if_neg (by rw [hWs]; simp)]
  exact tryPatterns_first_some u out pre r post hpre hr

/-- C3 amended, witness: a disabled rule first, then the matching rule. -/
theorem c3_first_match_wins_witness :
    trimL "https://a.b/x".data ≠ [] ∧
    formatLink "https://a.b/x" [ruleOff, ruleGoodPath] = .ok (some "https://a.b/x") := by
  refine ⟨by decide, ?_⟩
  exact c3_first_match_wins "https://a.b/x" [ruleOff] [] ruleGoodPath "https://a.b/x"
    (by decide) (by decide)
    (by
      intro q hq
      rw [List.mem_singleton] at hq
      subst hq
      decide)
    (by decide)

/-- C4: a candidate that is empty or contains any JS whitespace character
anywhere is rejected by the guards at the top of `formatLink`, before any
rule is consulted. -/
theorem c4_whitespace_rejected (s : String) (ps : List LinkPattern)
    (h : s.data = [] ∨ s.data.any isJsWs = true) :
    formatLink s ps = .ok none := by
  unfold formatLink
  rcases h with h | h
  · rw [if_pos (by rw [h]; rfl)]
  · by_cases ht : trimL s.data = []
    · rw [if_pos ht]
    · rw [if_neg ht, if_pos (by rw [h])]

/-- C4 witness: text with an interior space is rejected even though a rule
would match its first token. -/
theorem c4_whitespace_rejected_witness :
    ("https://company.atlassian.net/browse/DEV-1 x".data.any isJsWs = true) ∧
    formatLink "https://company.atlassian.net/browse/DEV-1 x" [jiraPreset] = .ok none := by
  refine ⟨by decide, ?_⟩
  exact c4_whitespace_rejected _ _ (Or.inr (by decide))

/-- C7: a disabled rule, or one with an empty `domainPattern` or
`pathPattern`, yields `null` from `matchPattern` without error; a list of
disabled rules makes `formatLink` return no-match for every candidate. -/
theorem c7_disabled_or_empty_skip :
    (∀ (u : String) (p : LinkPattern),
      p.enabled = false ∨ p.domainPattern = "" ∨ p.pathPattern = "" →
      matchPattern u p = .ok none) ∧
    (∀ (u : String) (ps : List LinkPattern),
      (∀ p ∈ ps, p.enabled = false) → formatLink u ps = .ok none) := by
  have part1 : ∀ (u : String) (p : LinkPattern),
      p.enabled = false ∨ p.domainPattern = "" ∨ p.pathPattern = "" →
      matchPattern u p = .ok none := by
    intro u p h
    rcases h with h | h | h
    · rw [matchPattern, if_pos h]
    · by_cases he : p.enabled = false
      · rw [matchPattern, if_pos he]
      · rw [matchPattern, if_neg he, if_pos h]
    · by_cases he : p.enabled = false
      · rw [matchPattern, if_pos he]
      · by_cases hd : p.domainPattern = ""
        · rw [matchPattern, if_neg he, if_pos hd]
        · rw [matchPattern, if_neg he, if_neg hd, if_pos h]
  refine ⟨part1, ?_⟩
  intro u ps h
  unfold formatLink
  by_cases ht : trimL u.data = []
  · rw [if_pos ht]
  · rw [if_neg ht]
    by_cases hw : u.data.any isJsWs
    · rw [if_pos hw]
    · rw [if_neg hw]
      exact tryPatterns_all_none u ps fun p hp => part1 u p (Or.inl (h p hp))

/-- C7 witness: the disabled copy of a matching rule never fires. -/
theorem c7_disabled_or_empty_skip_witness :
    matchPattern "https://a.b/x" ruleOff = .ok none ∧
    formatLink "https://a.b/x" [ruleOff] = .ok none := by
  refine ⟨c7_disabled_or_empty_skip.1 _ _ (Or.inl (by decide)), ?_⟩
  exact c7_disabled_or_empty_skip.2 _ _ (by
    intro p hp
    rw [List.mem_singleton] at hp
    subst hp
    decide)

/-- C9: the wildcard in `*.atlassian.net` is expanded to `.*`, which can
cross the host/path boundary: the JIRA preset matches a URL whose host is
`evil.com` because `.*` consumes `evil.com/x`. -/
theorem c9_wildcard_crosses_host :
    matchPattern "https://evil.com/x.atlassian.net/browse/DEV-1" jiraPreset =
      .ok (some "[DEV-1](https://evil.com/x.atlassian.net/browse/DEV-1)") := by
  decide

/-- C10: `${0}` passes `validateOutputTemplate` (its digit-placeholder test
accepts any `${digits}`), yet on a successful match the renderer only
substitutes `${1}`..`${9}`, so the token survives as literal output. -/
theorem c10_validator_renderer_disagree :
    validateOutputTemplate "${0}" = none ∧
    matchPattern "https://a.b/x" ruleZeroPh = .ok (some "${0}") := by
  refine ⟨by decide, by decide⟩

/-- C2 counterexample: the rule's `pathPattern` defines exactly K = 1
capture group, and the claim says every `${N}` with 1 < N ≤ 9 renders as
the empty string.  But the code offsets user captures by one for the
wrapper domain group and appends the query-string group `(\?.*)?`, so
`match[3]` — read for `${2}` — is the query string `?x=2`, not empty. -/
theorem c2_counterexample :
    matchPattern "https://a.b/p/1?x=2" ruleOneGroup =
      .ok (some "[1 ?x=2](https://a.b/p/1?x=2)") ∧
    (Except.ok (some "[1 ?x=2](https://a.b/p/1?x=2)") : Except Unit (Option String)) ≠
      .ok (some "[1 ](https://a.b/p/1?x=2)") := by
  refine ⟨by decide, by decide⟩

/-- C5 counterexample: template is exactly `${url}`, the rule matches, but
the rendered result is not the candidate URL: the candidate contains the
text `${domain}`, which the later `${domain}` pass replaces. -/
theorem c5_counterexample :
    matchPattern "https://a.b/${domain}" ruleUrlOnly = .ok (some "https://a.b/a.b") ∧
    ("https://a.b/a.b" : String) ≠ "https://a.b/${domain}" := by
  refine ⟨by decide, by decide⟩

/-! ## Lemmas about the matcher -/

/-- A match never moves the position backwards. -/
theorem mtch_pos_le (inp : List Char) :
    ∀ (f : Nat) (re : Regex) (pos : Nat) (caps : Caps) (pc : Nat × Caps),
      pc ∈ mtch inp f re pos caps → pos ≤ pc.1 := by
  intro f
  induction f with
  | zero =>
    intro re pos caps pc h
    rw [mtch] at h
    simp at h
  | succ f ih =>
    intro re pos caps pc h
    cases re with
    | eps =>
      rw [mtch] at h
      simp at h
      simp [h]
    | lit c =>
      rw [mtch] at h
      split at h
      · split at h <;> simp at h
        simp [h]
      · simp at h
    | dot =>
      rw [mtch] at h
      split at h
      · split at h <;> simp at h
        simp [h]
      · simp at h
    | cls neg items =>
      rw [mtch] at h
      split at h
      · split at h <;> simp at h
        simp [h]
      · simp at h
    | caret =>
      rw [mtch] at h
      split at h <;> simp at h
      simp [h]
    | dollar =>
      rw [mtch] at h
      split at h <;> simp at h
      simp [h]
    | seq a b =>
      rw [mtch] at h
      rw [List.mem_flatMap] at h
      obtain ⟨qc, hq, hpc⟩ := h
      exact le_trans (ih a pos caps qc hq) (ih b qc.1 qc.2 pc hpc)
    | alt a b =>
      rw [mtch] at h
      rw [List.mem_append] at h
      rcases h with h | h
      · exact ih a pos caps pc h
      · exact ih b pos caps pc h
    | group n a =>
      rw [mtch] at h
      rw [List.mem_map] at h
      obtain ⟨qc, hq, hpc⟩ := h
      have := ih a pos caps qc hq
      rw [← hpc]
      exact this
    | star a =>
      rw [mtch] at h
      rw [List.mem_append] at h
      rcases h with h | h
      · rw [List.mem_flatMap] at h
        obtain ⟨qc, hq, hpc⟩ := h
        rw [List.mem_filter] at hq
        exact le_trans (ih a pos caps qc hq.1) (ih (.star a) qc.1 qc.2 pc hpc)
      · simp at h
        simp [h]

theorem mtch_eps_inv {inp : List Char} {f pos caps pc}
    (h : pc ∈ mtch inp f .eps pos caps) : pc = (pos, caps) := by
  cases f with
  | zero => rw [mtch] at h; simp at h
  | succ f => rw [mtch] at h; simpa using h

theorem mtch_lit_inv {inp : List Char} {f c pos caps pc}
    (h : pc ∈ mtch inp f (.lit c) pos caps) :
    inp.drop pos = c :: inp.drop (pos + 1) ∧ pc = (pos + 1, caps) := by
  cases f with
  | zero => rw [mtch] at h; simp at h
  | succ f =>
    rw [mtch] at h
    split at h
    case h_1 x t heq =>
      split at h
      case isTrue hx =>
        simp at h
        subst hx
        refine ⟨?_, by simp [h]⟩
        rw [← List.tail_drop, heq, List.tail_cons]
      case isFalse => simp at h
    case h_2 => simp at h

theorem mtch_caret_inv {inp : List Char} {f pos caps pc}
    (h : pc ∈ mtch inp f .caret pos caps) : pos = 0 ∧ pc = (pos, caps) := by
  cases f with
  | zero => rw [mtch] at h; simp at h
  | succ f =>
    rw [mtch] at h
    split at h
    case isTrue hp => simp at h; exact ⟨hp, by simp [h]⟩
    case isFalse => simp at h

theorem mtch_seq_inv {inp : List Char} {f a b pos caps pc}
    (h : pc ∈ mtch inp f (.seq a b) pos caps) :
    ∃ g qc, qc ∈ mtch inp g a pos caps ∧ pc ∈ mtch inp g b qc.1 qc.2 := by
  cases f with
  | zero => rw [mtch] at h; simp at h
  | succ f =>
    rw [mtch] at h
    rw [List.mem_flatMap] at h
    obtain ⟨qc, hq, hpc⟩ := h
    exact ⟨f, qc, hq, hpc⟩

theorem mtch_alt_inv {inp : List Char} {f a b pos caps pc}
    (h : pc ∈ mtch inp f (.alt a b) pos caps) :
    ∃ g, pc ∈ mtch inp g a pos caps ∨ pc ∈ mtch inp g b pos caps := by
  cases f with
  | zero => rw [mtch] at h; simp at h
  | succ f =>
    rw [mtch] at h
    rw [List.mem_append] at h
    exact ⟨f, h⟩

theorem mtch_seqOfList_cons_inv {inp : List Char} {f x xs pos caps pc}
    (h : pc ∈ mtch inp f (seqOfList (x :: xs)) pos caps) :
    ∃ g qc, qc ∈ mtch inp g x pos caps ∧ pc ∈ mtch inp g (seqOfList xs) qc.1 qc.2 := by
  cases xs with
  | nil =>
    cases f with
    | zero => rw [mtch] at h; simp at h
    | succ f =>
      refine ⟨f + 1, pc, h, ?_⟩
      show pc ∈ mtch inp (f + 1) .eps pc.1 pc.2
      rw [mtch]
      simp
  | cons y ys =>
    exact mtch_seq_inv h

theorem capLookup_cons_isSome {k : Nat} {v : List Char} {caps : Caps} {n : Nat}
    (h : (capLookup ((k, v) :: caps) n).isSome = true) :
    k = n ∨ (capLookup caps n).isSome = true := by
  rw [capLookup] at h
  by_cases hk : k = n
  · exact Or.inl hk
  · rw [if_neg hk] at h
    exact Or.inr h

/-- Captures produced by a match are either inherited or recorded by a
group of the regex. -/
theorem mtch_caps_sub (inp : List Char) :
    ∀ (f : Nat) (re : Regex) (pos : Nat) (caps : Caps) (pc : Nat × Caps),
      pc ∈ mtch inp f re pos caps →
      ∀ n, (capLookup pc.2 n).isSome = true →
        (capLookup caps n).isSome = true ∨ n ∈ groupIdxs re := by
  intro f
  induction f with
  | zero =>
    intro re pos caps pc h
    rw [mtch] at h
    simp at h
  | succ f ih =>
    intro re pos caps pc h n hn
    cases re with
    | eps =>
      rw [mtch] at h; simp at h
      rw [h] at hn
      exact Or.inl hn
    | lit c =>
      rw [mtch] at h
      split at h
      · split at h <;> simp at h
        rw [h] at hn
        exact Or.inl hn
      · simp at h
    | dot =>
      rw [mtch] at h
      split at h
      · split at h <;> simp at h
        rw [h] at hn
        exact Or.inl hn
      · simp at h
    | cls neg items =>
      rw [mtch] at h
      split at h
      · split at h <;> simp at h
        rw [h] at hn
        exact Or.inl hn
      · simp at h
    | caret =>
      rw [mtch] at h
      split at h <;> simp at h
      rw [h] at hn
      exact Or.inl hn
    | dollar =>
      rw [mtch] at h
      split at h <;> simp at h
      rw [h] at hn
      exact Or.inl hn
    | seq a b =>
      rw [mtch] at h
      rw [List.mem_flatMap] at h
      obtain ⟨qc, hq, hpc⟩ := h
      rcases ih b qc.1 qc.2 pc hpc n hn with hin | hin
      · rcases ih a pos caps qc hq n hin with hin2 | hin2
        · exact Or.inl hin2
        · exact Or.inr (by simp [groupIdxs, hin2])
      · exact Or.inr (by simp [groupIdxs, hin])
    | alt a b =>
      rw [mtch] at h
      rw [List.mem_append] at h
      rcases h with h | h
      · rcases ih a pos caps pc h n hn with hin | hin
        · exact Or.inl hin
        · exact Or.inr (by simp [groupIdxs, hin])
      · rcases ih b pos caps pc h n hn with hin | hin
        · exact Or.inl hin
        · exact Or.inr (by simp [groupIdxs, hin])
    | group k a =>
      rw [mtch] at h
      rw [List.mem_map] at h
      obtain ⟨qc, hq, hpc⟩ := h
      rw [← hpc] at hn
      rcases capLookup_cons_isSome hn with hk | hk
      · exact Or.inr (by simp [groupIdxs, hk])
      · rcases ih a pos caps qc hq n hk with hin | hin
        · exact Or.inl hin
        · exact Or.inr (by simp [groupIdxs, hin])
    | star a =>
      rw [mtch] at h
      rw [List.mem_append] at h
      rcases h with h | h
      · rw [List.mem_flatMap] at h
        obtain ⟨qc, hq, hpc⟩ := h
        rw [List.mem_filter] at hq
        rcases ih (.star a) qc.1 qc.2 pc hpc n hn with hin | hin
        · rcases ih a pos caps qc hq.1 n hin with hin2 | hin2
          · exact Or.inl hin2
          · exact Or.inr (by simpa [groupIdxs] using hin2)
        · exact Or.inr (by simpa [groupIdxs] using hin)
      · simp at h
        rw [h] at hn
        exact Or.inl hn

/-- Inverting a successful `jsMatchFirst`. -/
theorem jsMatchFirst_some_inv {re : Regex} {inp : List Char} {st en : Nat}
    {caps : Caps} (h : jsMatchFirst re inp = some (st, en, caps)) :
    (en, caps) ∈ mtch inp (matchFuel re inp) re st [] := by
  unfold jsMatchFirst at h
  obtain ⟨a, _, hfa⟩ := List.exists_of_findSome?_eq_some h
  cases hm : mtch inp (matchFuel re inp) re a [] with
  | nil => rw [hm] at hfa; simp at hfa
  | cons pc rest =>
    rw [hm] at hfa
    simp only [Option.some.injEq, Prod.mk.injEq] at hfa
    obtain ⟨ha, hen, hcaps⟩ := hfa
    subst ha
    rw [hm, ← hen, ← hcaps]
    exact List.mem_cons_self _ _

/-- Inverting a successful `matchPattern`: the guards passed, the domain
fast path succeeded, the full regex matched, and the output is the
three-stage render of the template. -/
theorem matchPattern_ok_some_inv (u : String) (p : LinkPattern) (out : String)
    (h : matchPattern u p = .ok (some out)) :
    p.enabled = true ∧
    ∃ domRe, compileRegex (domainRegexSrc (escapeDomainPattern p.domainPattern)) = some domRe ∧
      regexTest domRe u.data = true ∧
      ∃ fullRe st en caps,
        compileRegex (fullRegexSrc (escapeDomainPattern p.domainPattern) p.pathPattern)
          = some fullRe ∧
        jsMatchFirst fullRe u.data = some (st, en, caps) ∧
        out = ⟨renderLoop caps
          (jsReplaceLit (jsReplaceLit p.outputTemplate.data "${url}".data u.data)
            "${domain}".data (stripScheme (capRaw caps 1)))⟩ := by
  unfold matchPattern at h
  split at h
  · simp at h
  next henabled =>
    split at h
    · simp at h
    next hdom =>
      split at h
      · simp at h
      next hpath =>
        dsimp only at h
        split at h
        next => simp at h
        next domRe hDomEq =>
          split at h
          next htest => simp at h
          next htest =>
            split at h
            next => simp at h
            next fullRe hFullEq =>
              split at h
              next => simp at h
              next st en caps hjm =>
                simp only [Except.ok.injEq, Option.some.injEq] at h
                exact ⟨by simpa using henabled, domRe, hDomEq, by simpa using htest,
                  fullRe, st, en, caps, hFullEq, hjm, h.symm⟩

/-- The capture-substitution loop leaves text without `${1}`..`${9}` tokens
unchanged. -/
theorem renderLoop_no_occ (caps : Caps) (l : List Char)
    (h : ∀ i, 1 ≤ i → i ≤ 9 → containsSub (phSrc i) l = false) :
    renderLoop caps l = l := by
  have key : ∀ (js : List Nat) (acc : List Char),
      (∀ j ∈ js, containsSub (phSrc (j + 1)) acc = false) →
      js.foldl (fun acc j =>
        jsReplaceLit acc (phSrc (j + 1)) (decodeUrlStringL (capRaw caps (j + 2)))) acc
        = acc := by
    intro js
    induction js with
    | nil => intro acc _; rfl
    | cons j js ih =>
      intro acc hacc
      rw [List.foldl_cons, jsReplaceLit_no_occ _ _ _ (hacc j (by simp))]
      exact ih acc fun j' hj' => hacc j' (by simp [hj'])
  exact key (List.range 9) l fun j hj =>
    h (j + 1) (by omega) (by rw [List.mem_range] at hj; omega)

/-- C5 amended: if the template is exactly `${url}`, the rule matches, and
the candidate URL contains none of the substrings `${domain}`, `${1}`..
`${9}`, `$$`, `$&`, `` $` ``, `$'`, then the rendered result is the
candidate URL verbatim.  (The excluded substrings are rewritten by the
later replace passes or by the `$`-substitution rules of `String.replace`,
as the counterexample shows.) -/
theorem c5_url_roundtrip (u : String) (p : LinkPattern) (out : String)
    (htpl : p.outputTemplate = "${url}")
    (h : matchPattern u p = .ok (some out))
    (hdom : containsSub "${domain}".data u.data = false)
    (hph : ∀ i, 1 ≤ i → i ≤ 9 → containsSub (phSrc i) u.data = false)
    (h3 : containsSub ['$', '$'] u.data = false)
    (h4 : containsSub ['$', '&'] u.data = false)
    (h5 : containsSub ['$', Char.ofNat 96] u.data = false)
    (h6 : containsSub ['$', Char.ofNat 39] u.data = false) :
    out = u := by
  obtain ⟨-, -, -, -, -, -, -, caps, -, -, hout⟩ := matchPattern_ok_some_inv u p out h
  rw [htpl] at hout
  rw [jsReplaceLit_self _ _ (by decide),
    getSubst_id _ _ _ u.data.length u.data le_rfl h3 h4 h5 h6,
    jsReplaceLit_no_occ _ _ _ hdom,
    renderLoop_no_occ caps u.data hph] at hout
  rw [hout]

/-- C5 amended, witness. -/
theorem c5_url_roundtrip_witness :
    ruleGoodPath.outputTemplate = "${url}" ∧
    matchPattern "https://a.b/x" ruleGoodPath = .ok (some "https://a.b/x") ∧
    ("https://a.b/x" : String) = "https://a.b/x" := by
  refine ⟨by decide, by decide, ?_⟩
  exact c5_url_roundtrip "https://a.b/x" ruleGoodPath "https://a.b/x"
    (by decide) (by decide) (by decide)
    (by intro i h1 h2; interval_cases i <;> decide)
    (by decide) (by decide) (by decide) (by decide)

/-! ## Capture-group numbering: the parser keeps all group indices below
its counter -/

theorem gBound_mono {re : Regex} {n m : Nat} (h : gBound re n) (hnm : n ≤ m) :
    gBound re m :=
  fun i hi => lt_of_lt_of_le (h i hi) hnm

theorem frInv_mono {fr} {n m : Nat} (h : frInv n fr) (hnm : n ≤ m) : frInv m fr :=
  ⟨fun k hk => lt_of_lt_of_le (h.1 k hk) hnm,
   fun r hr => gBound_mono (h.2.1 r hr) hnm,
   fun r hr => gBound_mono (h.2.2 r hr) hnm⟩

theorem gBound_of_nil {re : Regex} (h : groupIdxs re = []) (n : Nat) : gBound re n := by
  intro i hi
  rw [h] at hi
  simp at hi

theorem gBound_seqOfList {n : Nat} :
    ∀ {L : List Regex}, (∀ r ∈ L, gBound r n) → gBound (seqOfList L) n := by
  intro L
  induction L with
  | nil =>
    intro _ i hi
    simp [seqOfList, groupIdxs] at hi
  | cons a as ih =>
    intro h
    cases as with
    | nil => exact h a (by simp)
    | cons b bs =>
      intro i hi
      have hi' : i ∈ groupIdxs a ++ groupIdxs (seqOfList (b :: bs)) := hi
      rcases List.mem_append.mp hi' with h1 | h1
      · exact h a (by simp) i h1
      · exact ih (fun r hr => h r (by simp [hr])) i h1

theorem gBound_altOfList {n : Nat} :
    ∀ {L : List Regex}, (∀ r ∈ L, gBound r n) → gBound (altOfList L) n := by
  intro L
  induction L with
  | nil =>
    intro _ i hi
    simp [altOfList, groupIdxs] at hi
  | cons a as ih =>
    intro h
    cases as with
    | nil => exact h a (by simp)
    | cons b bs =>
      intro i hi
      have hi' : i ∈ groupIdxs a ++ groupIdxs (altOfList (b :: bs)) := hi
      rcases List.mem_append.mp hi' with h1 | h1
      · exact h a (by simp) i h1
      · exact ih (fun r hr => h r (by simp [hr])) i h1

theorem gBound_levelRegex {st : PSt} {n : Nat}
    (hs : ∀ r ∈ st.seqAcc, gBound r n) (ha : ∀ r ∈ st.alts, gBound r n) :
    gBound (levelRegex st) n := by
  unfold levelRegex
  apply gBound_altOfList
  intro r hr
  rw [List.mem_reverse] at hr
  rcases List.mem_cons.mp hr with rfl | hr2
  · apply gBound_seqOfList
    intro r hr3
    rw [List.mem_reverse] at hr3
    exact hs r hr3
  · exact ha r hr2

set_option maxHeartbeats 1000000 in
theorem escAtom_groups {c : Char} {a : Regex} (h : escAtom c = some a) :
    groupIdxs a = [] := by
  unfold escAtom at h
  split_ifs at h <;> injection h with h2 <;> subst h2 <;> rfl

theorem pRun_succ_cons (f : Nat) (st : PSt) (c : Char) (rest : List Char) :
    pRun (f + 1) st (c :: rest) =
      (match st.inCls with
      | some (neg, items) =>
        if c = ']' then
          pRun f { st with inCls := none,
                           seqAcc := Regex.cls neg items.reverse :: st.seqAcc,
                           lastQ := false } rest
        else if c = '\\' then
          match rest with
          | c2 :: rest2 =>
            match escCItem c2 with
            | some it => pRun f { st with inCls := some (neg, it :: items) } rest2
            | none => none
          | [] => none
        else
          match rest with
          | d :: c2 :: rest2 =>
            if d = '-' then
              if c2 = ']' then
                pRun f { st with inCls := some (neg, CItem.ch c :: items) } rest
              else if c2 = '\\' then none
              else if c ≤ c2 then
                pRun f { st with inCls := some (neg, CItem.rng c c2 :: items) } rest2
              else none
            else pRun f { st with inCls := some (neg, CItem.ch c :: items) } rest
          | _ => pRun f { st with inCls := some (neg, CItem.ch c :: items) } rest
      | none =>
        if c = '\\' then
          match rest with
          | c2 :: rest2 =>
            match escAtom c2 with
            | some a => pRun f (pushAtom st a) rest2
            | none => none
          | [] => none
        else if c = '(' then
          match rest with
          | d :: rest1 =>
            if d = '?' then
              match rest1 with
              | e :: rest2 =>
                if e = ':' then
                  pRun f { st with frames := (none, st.seqAcc, st.alts) :: st.frames,
                                   seqAcc := [], alts := [], lastQ := false } rest2
                else none
              | [] => none
            else
              pRun f { st with frames := (some st.ctr, st.seqAcc, st.alts) :: st.frames,
                               seqAcc := [], alts := [], ctr := st.ctr + 1,
                               lastQ := false } rest
          | [] =>
            pRun f { st with frames := (some st.ctr, st.seqAcc, st.alts) :: st.frames,
                             seqAcc := [], alts := [], ctr := st.ctr + 1,
                             lastQ := false } rest
        else if c = ')' then
          match st.frames with
          | [] => none
          | (gi, sv, av) :: fr =>
            let inner := levelRegex st
            let atom := match gi with
              | some n => Regex.group n inner
              | none => inner
            pRun f { st with frames := fr, seqAcc := atom :: sv, alts := av,
                             lastQ := false } rest
        else if c = '|' then
          pRun f { st with alts := seqOfList st.seqAcc.reverse :: st.alts,
                           seqAcc := [], lastQ := false } rest
        else if c = '*' || c = '+' || c = '?' then
          if st.lastQ then none
          else
            match st.seqAcc with
            | [] => none
            | a :: as =>
              let a2 := if c = '*' then Regex.star a
                else if c = '+' then Regex.seq a (Regex.star a)
                else Regex.alt a Regex.eps
              pRun f { st with seqAcc := a2 :: as, lastQ := true } rest
        else if c = '[' then
          match rest with
          | d :: rest2 =>
            if d = '^' then pRun f { st with inCls := some (true, []) } rest2
            else pRun f { st with inCls := some (false, []) } rest
          | [] => pRun f { st with inCls := some (false, []) } rest
        else if c = '.' then pRun f (pushAtom st .dot) rest
        else if c = '^' then pRun f (pushAtom st .caret) rest
        else if c = '$' then pRun f (pushAtom st .dollar) rest
        else if c = Char.ofNat 123 || c = Char.ofNat 125 || c = ']' then none
        else pRun f (pushAtom st (.lit c)) rest) := by
  cases rest <;> rfl

set_option maxHeartbeats 1000000 in
/-- Every capture-group index of a successfully parsed regex is below the
final counter. -/
theorem pRun_groups :
    ∀ (f : Nat) (st : PSt) (l : List Char) (re : Regex) (c' : Nat),
      pRun f st l = some (re, c') → stInv st → st.ctr ≤ c' ∧ gBound re c' := by
  intro f
  induction f with
  | zero =>
    intro st l re c' h _
    rw [pRun] at h
    cases h
  | succ f ih =>
    intro st l re c' h hinv
    obtain ⟨hseq, halts, hfr⟩ := hinv
    cases l with
    | nil =>
      rw [pRun] at h
      split at h
      · cases h
      · split at h
        · simp only [Option.some.injEq, Prod.mk.injEq] at h
          obtain ⟨hre, hc⟩ := h
          subst hre
          subst hc
          exact ⟨le_refl _, gBound_levelRegex hseq halts⟩
        · cases h
    | cons c rest =>
      rw [pRun_succ_cons] at h
      split at h
      next neg items hcls =>
        split at h
        next =>
          -- closing bracket pushes the finished class atom
          have hres := ih _ _ _ _ h (by
            refine ⟨?_, halts, hfr⟩
            intro r hr
            rcases List.mem_cons.mp hr with rfl | hr2
            · intro i hi
              simp [groupIdxs] at hi
            · exact hseq r hr2)
          exact hres
        next =>
          split at h
          next =>
            -- escaped class item
            split at h
            next =>
              split at h
              next =>
                have hres := ih _ _ _ _ h (by exact ⟨hseq, halts, hfr⟩)
                exact hres
              next => cases h
            next => cases h
          next =>
            -- plain class character, possibly a range
            split at h
            next =>
              split at h
              next =>
                split at h
                next =>
                  have hres := ih _ _ _ _ h (by exact ⟨hseq, halts, hfr⟩)
                  exact hres
                next =>
                  split at h
                  next => cases h
                  next =>
                    split at h
                    next =>
                      have hres := ih _ _ _ _ h (by exact ⟨hseq, halts, hfr⟩)
                      exact hres
                    next => cases h
              next =>
                have hres := ih _ _ _ _ h (by exact ⟨hseq, halts, hfr⟩)
                exact hres
            next =>
              have hres := ih _ _ _ _ h (by exact ⟨hseq, halts, hfr⟩)
              exact hres
      next hcls =>
        split at h
        next =>
          -- escape atom
          split at h
          next c2 rest2 =>
            split at h
            next a heqa =>
              have hres := ih _ _ _ _ h (by
                refine ⟨?_, halts, hfr⟩
                intro r hr
                rcases List.mem_cons.mp hr with rfl | hr2
                · exact gBound_of_nil (escAtom_groups heqa) _
                · exact hseq r hr2)
              exact hres
            next => cases h
          next => cases h
        next =>
          split at h
          next =>
            -- open paren
            split at h
            next d rest1 =>
              split at h
              next =>
                split at h
                next e rest2 =>
                  split at h
                  next =>
                    -- noncapturing group
                    have hres := ih _ _ _ _ h (by
                      refine ⟨fun r hr => absurd hr (List.not_mem_nil r), fun r hr => absurd hr (List.not_mem_nil r), ?_⟩
                      intro fr hfrm
                      rcases List.mem_cons.mp hfrm with rfl | hm2
                      · exact ⟨fun k hk => Option.noConfusion hk, hseq, halts⟩
                      · exact hfr fr hm2)
                    exact hres
                  next => cases h
                next => cases h
              next =>
                -- capturing group
                have hres := ih _ _ _ _ h (by
                  refine ⟨fun r hr => absurd hr (List.not_mem_nil r), fun r hr => absurd hr (List.not_mem_nil r), ?_⟩
                  intro fr hfrm
                  rcases List.mem_cons.mp hfrm with rfl | hm2
                  · refine ⟨fun k hk => ?_,
                      fun r hr => gBound_mono (hseq r hr) (Nat.le_succ _),
                      fun r hr => gBound_mono (halts r hr) (Nat.le_succ _)⟩
                    injection hk with hk2
                    subst hk2
                    exact Nat.lt_succ_self _
                  · exact frInv_mono (hfr fr hm2) (Nat.le_succ _))
                exact ⟨le_trans (Nat.le_succ _) hres.1, hres.2⟩
            next =>
              -- open paren at end of input: capturing group
              have hres := ih _ _ _ _ h (by
                refine ⟨fun r hr => absurd hr (List.not_mem_nil r), fun r hr => absurd hr (List.not_mem_nil r), ?_⟩
                intro fr hfrm
                rcases List.mem_cons.mp hfrm with rfl | hm2
                · refine ⟨fun k hk => ?_,
                    fun r hr => gBound_mono (hseq r hr) (Nat.le_succ _),
                    fun r hr => gBound_mono (halts r hr) (Nat.le_succ _)⟩
                  injection hk with hk2
                  subst hk2
                  exact Nat.lt_succ_self _
                · exact frInv_mono (hfr fr hm2) (Nat.le_succ _))
              exact ⟨le_trans (Nat.le_succ _) hres.1, hres.2⟩
          next =>
            split at h
            next =>
              -- close paren
              dsimp only at h
              split at h
              next => cases h
              next gi sv av fr hfreq =>
                have hfrhead : frInv st.ctr (gi, sv, av) := hfr _ (by rw [hfreq]; simp)
                split at h
                next =>
                  have hres := ih _ _ _ _ h (by
                    refine ⟨?_, hfrhead.2.2, ?_⟩
                    · intro r hr
                      rcases List.mem_cons.mp hr with rfl | hr2
                      · intro i hi
                        rcases List.mem_cons.mp hi with rfl | hi2
                        · exact hfrhead.1 _ rfl
                        · exact gBound_levelRegex hseq halts i hi2
                      · exact hfrhead.2.1 r hr2
                    · intro fr2 hfr2
                      exact hfr fr2 (by rw [hfreq]; simp [hfr2]))
                  exact hres
                next =>
                  have hres := ih _ _ _ _ h (by
                    refine ⟨?_, hfrhead.2.2, ?_⟩
                    · intro r hr
                      rcases List.mem_cons.mp hr with rfl | hr2
                      · exact gBound_levelRegex hseq halts
                      · exact hfrhead.2.1 r hr2
                    · intro fr2 hfr2
                      exact hfr fr2 (by rw [hfreq]; simp [hfr2]))
                  exact hres
            next =>
              split at h
              next =>
                -- alternation bar
                have hres := ih _ _ _ _ h (by
                  refine ⟨fun r hr => absurd hr (List.not_mem_nil r), ?_, hfr⟩
                  intro r hr
                  rcases List.mem_cons.mp hr with rfl | hr2
                  · apply gBound_seqOfList
                    intro r hr3
                    rw [List.mem_reverse] at hr3
                    exact hseq r hr3
                  · exact halts r hr2)
                exact hres
              next =>
                split at h
                next =>
                  -- quantifier
                  split at h
                  next => cases h
                  next =>
                    split at h
                    next => cases h
                    next a as heqacc =>
                      have hres := ih _ _ _ _ h (by
                        have hga : gBound a st.ctr := hseq a (by rw [heqacc]; simp)
                        refine ⟨?_, halts, hfr⟩
                        intro r hr
                        rcases List.mem_cons.mp hr with rfl | hr2
                        · split
                          · intro i hi
                            exact hga i hi
                          · split
                            · intro i hi
                              have hi2 : i ∈ groupIdxs a ++ groupIdxs (Regex.star a) := hi
                              rcases List.mem_append.mp hi2 with h1 | h1
                              · exact hga i h1
                              · exact hga i h1
                            · intro i hi
                              have hi2 : i ∈ groupIdxs a ++ groupIdxs Regex.eps := hi
                              rcases List.mem_append.mp hi2 with h1 | h1
                              · exact hga i h1
                              · simp [groupIdxs] at h1
                        · exact hseq r (by rw [heqacc]; simp [hr2]))
                      exact hres
                next =>
                  split at h
                  next =>
                    -- open class
                    split at h
                    next d rest2 =>
                      split at h
                      next =>
                        have hres := ih _ _ _ _ h (by exact ⟨hseq, halts, hfr⟩)
                        exact hres
                      next =>
                        have hres := ih _ _ _ _ h (by exact ⟨hseq, halts, hfr⟩)
                        exact hres
                    next =>
                      have hres := ih _ _ _ _ h (by exact ⟨hseq, halts, hfr⟩)
                      exact hres
                  next =>
                    split at h
                    next =>
                      -- dot
                      have hres := ih _ _ _ _ h (by
                        refine ⟨?_, halts, hfr⟩
                        intro r hr
                        rcases List.mem_cons.mp hr with rfl | hr2
                        · intro i hi
                          simp [groupIdxs] at hi
                        · exact hseq r hr2)
                      exact hres
                    next =>
                      split at h
                      next =>
                        -- caret
                        have hres := ih _ _ _ _ h (by
                          refine ⟨?_, halts, hfr⟩
                          intro r hr
                          rcases List.mem_cons.mp hr with rfl | hr2
                          · intro i hi
                            simp [groupIdxs] at hi
                          · exact hseq r hr2)
                        exact hres
                      next =>
                        split at h
                        next =>
                          -- dollar
                          have hres := ih _ _ _ _ h (by
                            refine ⟨?_, halts, hfr⟩
                            intro r hr
                            rcases List.mem_cons.mp hr with rfl | hr2
                            · intro i hi
                              simp [groupIdxs] at hi
                            · exact hseq r hr2)
                          exact hres
                        next =>
                          split at h
                          next => cases h
                          next =>
                            -- plain literal
                            have hres := ih _ _ _ _ h (by
                              refine ⟨?_, halts, hfr⟩
                              intro r hr
                              rcases List.mem_cons.mp hr with rfl | hr2
                              · intro i hi
                                simp [groupIdxs] at hi
                              · exact hseq r hr2)
                            exact hres

theorem compileRegexCnt_gBound {src : List Char} {re : Regex} {c' : Nat}
    (h : compileRegexCnt src = some (re, c')) : gBound re c' :=
  (pRun_groups (src.length + 1) {} src re c' h
    ⟨fun r hr => absurd hr (List.not_mem_nil r),
     fun r hr => absurd hr (List.not_mem_nil r),
     fun fr hfr2 => absurd hfr2 (List.not_mem_nil fr)⟩).2

/-- C2 amended: user capture groups sit at match indices 2..K+1 (offset by
the wrapper domain group), and index K+2 is the synthetic query-string
group, so every placeholder `${N}` with K+1 < N ≤ 9 reads `match[N+1]`,
which no group of the regex can set; its substitution value is the decode
of the empty string, i.e. the empty string.  (`${K+1}` itself reads the
query-string group — see the counterexample.) -/
theorem c2_spurious_placeholders_empty (dom path u : String) (K : Nat)
    (re : Regex) (st en : Nat) (caps : Caps) (N : Nat)
    (hc : compileRegexCnt (fullRegexSrc (escapeDomainPattern dom) path) = some (re, K + 3))
    (hm : jsMatchFirst re u.data = some (st, en, caps))
    (hN1 : K + 1 < N) (hN2 : N ≤ 9) :
    decodeUrlStringL (capRaw caps (N + 1)) = [] := by
  have hgb : gBound re (K + 3) := compileRegexCnt_gBound hc
  have hmem := jsMatchFirst_some_inv hm
  have hlk : capLookup caps (N + 1) = none := by
    cases hl : capLookup caps (N + 1) with
    | none => rfl
    | some v =>
      have hsome : (capLookup ((en, caps) : Nat × Caps).2 (N + 1)).isSome = true := by
        show (capLookup caps (N + 1)).isSome = true
        rw [hl]
        rfl
      rcases mtch_caps_sub u.data _ re st [] (en, caps) hmem (N + 1) hsome with h0 | h0
      · simp [capLookup] at h0
      · have := hgb (N + 1) h0
        omega
  unfold capRaw
  rw [hlk]
  decide

/-- C2 amended, witness: rule with one capture group, no query string in
the URL, placeholder index N = 3 (so K + 1 < N ≤ 9). -/
theorem c2_spurious_placeholders_empty_witness :
    compileRegexCnt c2WitSrc = some (c2WitRegex, 4) ∧
    jsMatchFirst c2WitRegex "https://a.b/p/7".data = some (0, 15, c2WitCaps) ∧
    decodeUrlStringL (capRaw c2WitCaps 4) = [] := by
  refine ⟨by decide, by decide, ?_⟩
  exact c2_spurious_placeholders_empty "a.b" "\\/p\\/(\\d+)" "https://a.b/p/7" 1
    c2WitRegex 0 15 c2WitCaps 3 (by decide) (by decide) (by decide) (by decide)

/-! ## Parsing the domain regex: single-step lemmas -/

theorem escAtom_special {c : Char} (h : c ∈ specials) : escAtom c = some (.lit c) := by
  simp only [specials, List.mem_cons, List.not_mem_nil, or_false] at h
  rcases h with rfl | rfl | rfl | rfl | rfl | rfl | rfl | rfl | rfl | rfl | rfl | rfl | rfl <;>
    decide

theorem pRun_step_esc (f : Nat) (st : PSt) (hcls : st.inCls = none) (c : Char)
    (a : Regex) (ha : escAtom c = some a) (rest : List Char) :
    pRun (f + 1) st ('\\' :: c :: rest) = pRun f (pushAtom st a) rest := by
  rw [pRun_succ_cons]
  split
  next hx => rw [hcls] at hx; cases hx
  next => simp [ha]

theorem pRun_step_caret (f : Nat) (st : PSt) (hcls : st.inCls = none)
    (rest : List Char) :
    pRun (f + 1) st ('^' :: rest) = pRun f (pushAtom st .caret) rest := by
  rw [pRun_succ_cons]
  split
  next hx => rw [hcls] at hx; cases hx
  next => simp

theorem pRun_step_dot (f : Nat) (st : PSt) (hcls : st.inCls = none)
    (rest : List Char) :
    pRun (f + 1) st ('.' :: rest) = pRun f (pushAtom st .dot) rest := by
  rw [pRun_succ_cons]
  split
  next hx => rw [hcls] at hx; cases hx
  next => simp

theorem pRun_step_starq (f : Nat) (st : PSt) (hcls : st.inCls = none)
    (hq : st.lastQ = false) (a : Regex) (as : List Regex)
    (hacc : st.seqAcc = a :: as) (rest : List Char) :
    pRun (f + 1) st ('*' :: rest) =
      pRun f { st with seqAcc := .star a :: as, lastQ := true } rest := by
  rw [pRun_succ_cons]
  split
  next hx => rw [hcls] at hx; cases hx
  next => simp [hq, hacc]

theorem pRun_step_opt (f : Nat) (st : PSt) (hcls : st.inCls = none)
    (hq : st.lastQ = false) (a : Regex) (as : List Regex)
    (hacc : st.seqAcc = a :: as) (rest : List Char) :
    pRun (f + 1) st ('?' :: rest) =
      pRun f { st with seqAcc := .alt a .eps :: as, lastQ := true } rest := by
  rw [pRun_succ_cons]
  split
  next hx => rw [hcls] at hx; cases hx
  next => simp [hq, hacc]

theorem pRun_step_plain (f : Nat) (st : PSt) (hcls : st.inCls = none) (c : Char)
    (rest : List Char) (hc : c ∉ specials) (hs : c ≠ '*') :
    pRun (f + 1) st (c :: rest) = pRun f (pushAtom st (.lit c)) rest := by
  simp only [specials, List.mem_cons, List.not_mem_nil, or_false] at hc
  push_neg at hc
  obtain ⟨hdot, hplus, hqm, hcarets, hdollars, hlb, hrb, hlp, hrp, hpipe, hlbr, hrbr, hbsl⟩ := hc
  rw [pRun_succ_cons]
  split
  next hx => rw [hcls] at hx; cases hx
  next =>
    rw [if_neg hbsl, if_neg hlp, if_neg hrp, if_neg hpipe,
      if_neg (by simp [hs, hplus, hqm]), if_neg hlbr, if_neg hdot,
      if_neg hcarets, if_neg hdollars, if_neg (by simp [hlb, hrb, hrbr])]

theorem pRun_succ_nil (f : Nat) (st : PSt) :
    pRun (f + 1) st [] =
      match st.inCls with
      | some _ => none
      | none =>
        match st.frames with
        | [] => some (levelRegex st, st.ctr)
        | _ :: _ => none := rfl

theorem pRun_scheme_prefix (F : Nat) (tail : List Char) :
    pRun (F + 10) {} ('^' :: 'h' :: 't' :: 't' :: 'p' :: 's' :: '?' :: ':' ::
        '\\' :: '/' :: '\\' :: '/' :: tail) = pRun F schemeSt tail := rfl

theorem stepsOf_le_escAllL (d : List Char) : stepsOf d ≤ (escAllL d).length := by
  induction d with
  | nil => simp [stepsOf, escAllL]
  | cons c cs ih =>
    have hone : (if c = '*' then 2 else 1) ≤ (escOne c).length := by
      by_cases h2 : c = '*'
      · subst h2; decide
      · rw [if_neg h2]
        unfold escOne
        split_ifs <;> simp
    have hcons : stepsOf (c :: cs) = (if c = '*' then 2 else 1) + stepsOf cs := rfl
    have hlen : (escAllL (c :: cs)).length = (escOne c).length + (escAllL cs).length := by
      show (escOne c ++ escAllL cs).length = _
      simp [List.length_append]
    omega

theorem pRun_escAll (rest : List Char) (d : List Char) :
    ∀ (f : Nat) (st : PSt), st.inCls = none →
      pRun (stepsOf d + f) st (escAllL d ++ rest) =
        pRun f { st with seqAcc := (domAtoms d).reverse ++ st.seqAcc,
                         lastQ := lastQOf d st.lastQ } rest := by
  induction d with
  | nil =>
    intro f st _
    show pRun (0 + f) st rest = _
    rw [Nat.zero_add]
    exact rfl
  | cons c cs ih =>
    intro f st hcls
    have hcons : stepsOf (c :: cs) = (if c = '*' then 2 else 1) + stepsOf cs := rfl
    by_cases hstar : c = '*'
    · subst hstar
      have h1 : escAllL ('*' :: cs) ++ rest = '.' :: '*' :: (escAllL cs ++ rest) := by
        simp [escAllL, escOne, specials]
      have h2 : stepsOf ('*' :: cs) + f = ((stepsOf cs + f) + 1) + 1 := by
        rw [hcons, show (if '*' = '*' then 2 else 1) = 2 from rfl]
        omega
      rw [h1, h2, pRun_step_dot _ st hcls,
        pRun_step_starq _ (pushAtom st .dot) hcls rfl .dot st.seqAcc rfl]
      refine (ih f _ ?_).trans ?_
      · exact hcls
      · congr 1
        simp [domAtoms, atomOf, lastQOf, pushAtom, List.append_assoc]
    · by_cases hsp : c ∈ specials
      · have h1 : escAllL (c :: cs) ++ rest = '\\' :: c :: (escAllL cs ++ rest) := by
          simp [escAllL, escOne, hsp]
        have h2 : stepsOf (c :: cs) + f = (stepsOf cs + f) + 1 := by
          rw [hcons, if_neg hstar]
          omega
        rw [h1, h2, pRun_step_esc _ st hcls c (.lit c) (escAtom_special hsp)]
        refine (ih f _ ?_).trans ?_
        · exact hcls
        · congr 1
          simp [domAtoms, atomOf, lastQOf, pushAtom, hstar, List.append_assoc]
      · have h1 : escAllL (c :: cs) ++ rest = c :: (escAllL cs ++ rest) := by
          simp [escAllL, escOne, hsp, hstar]
        have h2 : stepsOf (c :: cs) + f = (stepsOf cs + f) + 1 := by
          rw [hcons, if_neg hstar]
          omega
        rw [h1, h2, pRun_step_plain _ st hcls c _ hsp hstar]
        refine (ih f _ ?_).trans ?_
        · exact hcls
        · congr 1
          simp [domAtoms, atomOf, lastQOf, pushAtom, hstar, List.append_assoc]

theorem compile_domainRegexSrc (s : String) :
    compileRegexCnt (domainRegexSrc (escapeDomainPattern s)) =
      some (seqOfList (schemeAtoms ++ domAtoms s.data), 1) := by
  obtain ⟨d⟩ := s
  have hE := stepsOf_le_escAllL d
  obtain ⟨k, hk⟩ : ∃ k, (escAllL d).length + 3 = stepsOf d + (k + 1) :=
    ⟨(escAllL d).length + 2 - stepsOf d, by omega⟩
  have hsrc : domainRegexSrc (escapeDomainPattern ⟨d⟩) =
      '^' :: 'h' :: 't' :: 't' :: 'p' :: 's' :: '?' :: ':' ::
        '\\' :: '/' :: '\\' :: '/' :: (escAllL d ++ []) := by
    rw [List.append_nil]
    rfl
  have hlen : (domainRegexSrc (escapeDomainPattern ⟨d⟩)).length + 1 =
      (stepsOf d + (k + 1)) + 10 := by
    rw [hsrc]
    simp only [List.length_cons, List.length_append, List.length_nil]
    omega
  show pRun ((domainRegexSrc (escapeDomainPattern ⟨d⟩)).length + 1) {}
      (domainRegexSrc (escapeDomainPattern ⟨d⟩)) = _
  rw [hlen, hsrc, pRun_scheme_prefix]
  refine (pRun_escAll [] d (k + 1) schemeSt rfl).trans ?_
  rw [pRun_succ_nil]
  show some (levelRegex _, 1) = _
  rw [show levelRegex { schemeSt with
        seqAcc := (domAtoms d).reverse ++ schemeSt.seqAcc,
        lastQ := lastQOf d schemeSt.lastQ } =
      seqOfList (((domAtoms d).reverse ++ schemeSt.seqAcc).reverse) from rfl]
  rw [List.reverse_append, List.reverse_reverse]
  rfl

/-! ## Matching the domain regex implies the spec-side wildcard semantics -/

theorem wild_of_mtch_domAtoms (inp : List Char) :
    ∀ (d : List Char) (f pos : Nat) (caps : Caps) (pc : Nat × Caps),
      pc ∈ mtch inp f (seqOfList (domAtoms d)) pos caps →
      pos ≤ pc.1 ∧ wildExactL d (seg inp pos pc.1) := by
  intro d
  induction d with
  | nil =>
    intro f pos caps pc h
    have hpc := mtch_eps_inv h
    subst hpc
    exact ⟨le_refl _, by simp [seg, wildExactL]⟩
  | cons c cs ih =>
    intro f pos caps pc h
    rw [show domAtoms (c :: cs) = atomOf c :: domAtoms cs from rfl] at h
    obtain ⟨g, qc, hq, hrest⟩ := mtch_seqOfList_cons_inv h
    have hq1 := mtch_pos_le inp g (atomOf c) pos caps qc hq
    obtain ⟨hle, hwild⟩ := ih g qc.1 qc.2 pc hrest
    by_cases hc : c = '*'
    · subst hc
      refine ⟨le_trans hq1 hle, ?_⟩
      show ∃ a b, seg inp pos pc.1 = a ++ b ∧ wildExactL cs b
      refine ⟨seg inp pos qc.1, seg inp qc.1 pc.1, ?_, hwild⟩
      rw [seg, seg, seg, show pc.1 - pos = (qc.1 - pos) + (pc.1 - qc.1) from by omega,
        List.take_add, List.drop_drop, show pos + (qc.1 - pos) = qc.1 from by omega]
    · rw [show atomOf c = .lit c from by simp [atomOf, hc]] at hq
      obtain ⟨hdrop, hqc⟩ := mtch_lit_inv hq
      subst hqc
      have hle2 : pos + 1 ≤ pc.1 := hle
      have hwild2 : wildExactL cs (seg inp (pos + 1) pc.1) := hwild
      refine ⟨by omega, ?_⟩
      rw [wildExactL, if_neg hc]
      refine ⟨seg inp (pos + 1) pc.1, ?_, hwild2⟩
      rw [seg, seg, hdrop, show pc.1 - pos = (pc.1 - (pos + 1)) + 1 from by omega,
        List.take_succ_cons]

theorem mtch_slashes_dom_inv (d inp : List Char) (f k : Nat) (caps : Caps)
    (pc : Nat × Caps)
    (h : pc ∈ mtch inp f
      (seqOfList (.lit ':' :: .lit '/' :: .lit '/' :: domAtoms d)) k caps) :
    inp.drop k = ':' :: '/' :: '/' :: inp.drop (k + 3) ∧
      ∃ a b, inp.drop (k + 3) = a ++ b ∧ wildExactL d a := by
  obtain ⟨g1, q1, hA, h⟩ := mtch_seqOfList_cons_inv h
  obtain ⟨e1, hq1⟩ := mtch_lit_inv hA
  subst hq1
  obtain ⟨g2, q2, hB, h⟩ := mtch_seqOfList_cons_inv h
  obtain ⟨e2, hq2⟩ := mtch_lit_inv hB
  subst hq2
  obtain ⟨g3, q3, hC, h⟩ := mtch_seqOfList_cons_inv h
  obtain ⟨e3, hq3⟩ := mtch_lit_inv hC
  subst hq3
  have e2' : inp.drop (k + 1) = '/' :: inp.drop (k + 2) := e2
  have e3' : inp.drop (k + 2) = '/' :: inp.drop (k + 3) := e3
  have hrest : pc ∈ mtch inp g3 (seqOfList (domAtoms d)) (k + 3) caps := h
  obtain ⟨hle, hwild⟩ := wild_of_mtch_domAtoms inp d g3 (k + 3) caps pc hrest
  refine ⟨by rw [e1, e2', e3'], seg inp (k + 3) pc.1, inp.drop pc.1, ?_, hwild⟩
  rw [seg, show inp.drop pc.1 = (inp.drop (k + 3)).drop (pc.1 - (k + 3)) from by
    rw [List.drop_drop, show k + 3 + (pc.1 - (k + 3)) = pc.1 from by omega]]
  exact (List.take_append_drop _ _).symm

theorem mtch_scheme_dom_inv (d inp : List Char) (f pos : Nat) (caps : Caps)
    (pc : Nat × Caps)
    (h : pc ∈ mtch inp f (seqOfList (schemeAtoms ++ domAtoms d)) pos caps) :
    pos = 0 ∧ ∃ rest,
      (inp = "http://".data ++ rest ∨ inp = "https://".data ++ rest) ∧
      ∃ a b, rest = a ++ b ∧ wildExactL d a := by
  rw [show schemeAtoms ++ domAtoms d =
      .caret :: .lit 'h' :: .lit 't' :: .lit 't' :: .lit 'p' ::
      .alt (.lit 's') .eps :: .lit ':' :: .lit '/' :: .lit '/' ::
      domAtoms d from rfl] at h
  obtain ⟨g1, q1, hA, h⟩ := mtch_seqOfList_cons_inv h
  obtain ⟨hp0, hq1⟩ := mtch_caret_inv hA
  subst hp0
  subst hq1
  obtain ⟨g2, q2, hB, h⟩ := mtch_seqOfList_cons_inv h
  obtain ⟨e1, hq2⟩ := mtch_lit_inv hB
  subst hq2
  obtain ⟨g3, q3, hC, h⟩ := mtch_seqOfList_cons_inv h
  obtain ⟨e2, hq3⟩ := mtch_lit_inv hC
  subst hq3
  obtain ⟨g4, q4, hD, h⟩ := mtch_seqOfList_cons_inv h
  obtain ⟨e3, hq4⟩ := mtch_lit_inv hD
  subst hq4
  obtain ⟨g5, q5, hE, h⟩ := mtch_seqOfList_cons_inv h
  obtain ⟨e4, hq5⟩ := mtch_lit_inv hE
  subst hq5
  obtain ⟨g6, q6, hF, h⟩ := mtch_seqOfList_cons_inv h
  have ea : inp.drop 0 = 'h' :: inp.drop 1 := e1
  have eb : inp.drop 1 = 't' :: inp.drop 2 := e2
  have ec : inp.drop 2 = 't' :: inp.drop 3 := e3
  have ed : inp.drop 3 = 'p' :: inp.drop 4 := e4
  obtain ⟨g7, hAlt⟩ := mtch_alt_inv hF
  refine ⟨rfl, ?_⟩
  rcases hAlt with hs | heps
  · obtain ⟨e5, hq6⟩ := mtch_lit_inv hs
    subst hq6
    have ee : inp.drop 4 = 's' :: inp.drop 5 := e5
    have h5 : pc ∈ mtch inp g6
        (seqOfList (.lit ':' :: .lit '/' :: .lit '/' :: domAtoms d)) 5 caps := h
    obtain ⟨ef, hsplit⟩ := mtch_slashes_dom_inv d inp g6 5 caps pc h5
    refine ⟨inp.drop 8, Or.inr ?_, ?_⟩
    · calc inp = inp.drop 0 := (List.drop_zero inp).symm
        _ = 'h' :: inp.drop 1 := ea
        _ = 'h' :: 't' :: inp.drop 2 := by rw [eb]
        _ = 'h' :: 't' :: 't' :: inp.drop 3 := by rw [ec]
        _ = 'h' :: 't' :: 't' :: 'p' :: inp.drop 4 := by rw [ed]
        _ = 'h' :: 't' :: 't' :: 'p' :: 's' :: inp.drop 5 := by rw [ee]
        _ = 'h' :: 't' :: 't' :: 'p' :: 's' :: ':' :: '/' :: '/' :: inp.drop 8 := by
            rw [show inp.drop 5 = ':' :: '/' :: '/' :: inp.drop 8 from ef]
    · exact hsplit
  · have hq6 := mtch_eps_inv heps
    subst hq6
    have h4 : pc ∈ mtch inp g6
        (seqOfList (.lit ':' :: .lit '/' :: .lit '/' :: domAtoms d)) 4 caps := h
    obtain ⟨ef, hsplit⟩ := mtch_slashes_dom_inv d inp g6 4 caps pc h4
    refine ⟨inp.drop 7, Or.inl ?_, ?_⟩
    · calc inp = inp.drop 0 := (List.drop_zero inp).symm
        _ = 'h' :: inp.drop 1 := ea
        _ = 'h' :: 't' :: inp.drop 2 := by rw [eb]
        _ = 'h' :: 't' :: 't' :: inp.drop 3 := by rw [ec]
        _ = 'h' :: 't' :: 't' :: 'p' :: inp.drop 4 := by rw [ed]
        _ = 'h' :: 't' :: 't' :: 'p' :: ':' :: '/' :: '/' :: inp.drop 7 := by
            rw [show inp.drop 4 = ':' :: '/' :: '/' :: inp.drop 7 from ef]
    · exact hsplit

theorem isPre_append (a b : List Char) : isPre a (a ++ b) = true := by
  induction a with
  | nil => rfl
  | cons c cs ih => simp [isPre, ih]

/-- Any candidate without an `http://` or `https://` prefix fails the
domain fast path of every rule. -/
theorem matchPattern_no_scheme (u : String) (p : LinkPattern)
    (h1 : isPre "http://".data u.data = false)
    (h2 : isPre "https://".data u.data = false) :
    matchPattern u p = .ok none := by
  have hjm : jsMatchFirst (seqOfList (schemeAtoms ++ domAtoms p.domainPattern.data))
      u.data = none := by
    unfold jsMatchFirst
    refine List.findSome?_eq_none_iff.mpr ?_
    intro st hst
    cases hm : mtch u.data
        (matchFuel (seqOfList (schemeAtoms ++ domAtoms p.domainPattern.data)) u.data)
        (seqOfList (schemeAtoms ++ domAtoms p.domainPattern.data)) st [] with
    | nil => simp
    | cons pc tl =>
      exfalso
      have hmem : pc ∈ mtch u.data
          (matchFuel (seqOfList (schemeAtoms ++ domAtoms p.domainPattern.data)) u.data)
          (seqOfList (schemeAtoms ++ domAtoms p.domainPattern.data)) st [] := by
        rw [hm]
        exact List.mem_cons_self _ _
      obtain ⟨-, rest, hpre, -⟩ :=
        mtch_scheme_dom_inv p.domainPattern.data u.data _ _ _ _ hmem
      rcases hpre with hp | hp
      · rw [hp, isPre_append] at h1
        cases h1
      · rw [hp, isPre_append] at h2
        cases h2
  have htest : regexTest (seqOfList (schemeAtoms ++ domAtoms p.domainPattern.data))
      u.data = false := by
    rw [regexTest, hjm]
    rfl
  unfold matchPattern
  split
  next => rfl
  next =>
    split
    next => rfl
    next =>
      split
      next => rfl
      next =>
        dsimp only
        rw [show compileRegex (domainRegexSrc (escapeDomainPattern p.domainPattern)) =
            some (seqOfList (schemeAtoms ++ domAtoms p.domainPattern.data)) from by
          unfold compileRegex
          rw [compile_domainRegexSrc]
          rfl]
        show (if regexTest (seqOfList (schemeAtoms ++ domAtoms p.domainPattern.data))
            u.data = false then Except.ok none else _) = Except.ok none
        rw [if_pos htest]

/-- C6: a rule matches a candidate URL only if the URL begins with `http://`
or `https://` and the remainder after the scheme starts with a wildcard
expansion of the rule's `domainPattern` (each `*` matching an arbitrary,
possibly empty, character sequence and every other pattern character matched
literally); and for every candidate without such a scheme prefix,
`formatLink` returns null over any rule list. -/
theorem c6_scheme_and_wildcard (p : LinkPattern) (u : String)
    (ps : List LinkPattern) :
    (∀ out, matchPattern u p = .ok (some out) →
      ∃ rest, (u.data = "http://".data ++ rest ∨ u.data = "https://".data ++ rest) ∧
        ∃ a b, rest = a ++ b ∧ wildExactL p.domainPattern.data a) ∧
    (isPre "http://".data u.data = false → isPre "https://".data u.data = false →
      formatLink u ps = .ok none) := by
  constructor
  · intro out h
    obtain ⟨-, domRe, hDom, htest, -⟩ := matchPattern_ok_some_inv u p out h
    rw [show compileRegex (domainRegexSrc (escapeDomainPattern p.domainPattern)) =
        some (seqOfList (schemeAtoms ++ domAtoms p.domainPattern.data)) from by
      unfold compileRegex
      rw [compile_domainRegexSrc]
      rfl] at hDom
    injection hDom with hDom
    subst hDom
    rw [regexTest] at htest
    obtain ⟨⟨st, en, caps⟩, hjm⟩ := Option.isSome_iff_exists.mp htest
    have hmem := jsMatchFirst_some_inv hjm
    obtain ⟨-, rest, hpre, hsplit⟩ :=
      mtch_scheme_dom_inv p.domainPattern.data u.data _ _ _ _ hmem
    exact ⟨rest, hpre, hsplit⟩
  · intro h1 h2
    unfold formatLink
    split
    next => rfl
    next =>
      split
      next => rfl
      next => exact tryPatterns_all_none u ps fun q _ => matchPattern_no_scheme u q h1 h2

theorem c6_scheme_and_wildcard_witness :
    (∃ rest, ("https://a.b/x".data = "http://".data ++ rest ∨
        "https://a.b/x".data = "https://".data ++ rest) ∧
      ∃ a b, rest = a ++ b ∧ wildExactL "a.b".data a) ∧
    formatLink "ftp://a.b/x" [ruleGoodPath] = .ok none :=
  ⟨(c6_scheme_and_wildcard ruleGoodPath "https://a.b/x" []).1 "https://a.b/x"
      (by decide),
   (c6_scheme_and_wildcard ruleGoodPath "ftp://a.b/x" [ruleGoodPath]).2
      (by decide) (by decide)⟩
